import Mathlib

/-!
# Warp-level SIMT epilogue: tiling policy and fragment iterator

A shallow embedding of

* `include/cutlass/epilogue/warp/simt_policy.h` (`SimtPolicy`), and
* `include/cutlass/epilogue/warp/fragment_iterator_simt.h` (`FragmentIteratorSimt`).

Conventions of the embedding.

* A C++ `int` is a mathematical integer (`Int`).  `/` and `%` of C++ truncate toward zero and
  are `Int.tdiv` and `Int.tmod`.  Signed overflow, which C++ leaves undefined, is not
  modelled: all quantities here are tile extents and positions inside a tile.
* Instantiating a class template either fails (a `static_assert` fires, or a constant
  expression divides by zero) or yields the values of its `static int const` members.  This is
  an `Except String _`.
* `Array<T, N>` is a `List T` of length `N`.  A pointer obtained by
  `reinterpret_cast<AccessType*>` is the same list addressed in units of `kElementsPerAccess`
  elements.  An access that leaves the underlying array is undefined behaviour and modelled
  as `none`.
-/

set_option autoImplicit false
set_option linter.unusedVariables false

namespace cutlass

/-- The members `kM`, `kN`, `kK` of a `GemmShape<M, N, K>`, the shape concept used for
`WarpShape` and `LaneMmaShape`; the template arguments are of type `int`. -/
structure GemmShape where
  kM : Int
  kN : Int
  kK : Int
deriving DecidableEq

/-- The members `kRow`, `kColumn` of a `MatrixShape<Row, Column>`; the template arguments are
of type `int`. -/
structure MatrixShape where
  kRow : Int
  kColumn : Int
deriving DecidableEq

/-- The members of the `MmaSimtPolicy` concept that the epilogue reads: `WarpShape` is the
arrangement of the lanes of a warp, `LaneMmaShape` the micro-tile of one lane. -/
structure MmaSimtPolicy where
  WarpShape : MatrixShape
  LaneMmaShape : GemmShape
deriving DecidableEq

/-- Modelled from the spec: the matrix-multiply operator (concept `arch::Mma`), which is
declared outside these sources.  Of the operator only "the lane's actual accumulator register
count" matters to the specification; the element type `ElementC` is the type parameter of the
iterator below. -/
structure Operator where
  kAccumulatorRegisters : Int
deriving DecidableEq

/-- The layout tag that selects a specialisation; `layout::RowMajor` is the one the sources
specialise on. -/
inductive Layout where
  | RowMajor
  | ColumnMajor
deriving DecidableEq

namespace epilogue
namespace warp

/-! ## `simt_policy.h` -/

/-- The `static int const` members of an instantiated `SimtPolicy`. -/
structure Policy where
  kIterations : Int
  kElementsPerIteration : Int
  kAccumulatorElementCount : Int
  kElementsPerAccess : Int
  kRowsPerIteration : Int
  kAccessesPerIteration : Int
deriving DecidableEq

/-- Instantiation of `SimtPolicy<WarpShape, Operator, Layout, MmaSimtPolicy>`.

Only the partial specialisation for `layout::RowMajor` is defined; the primary template is
declared without a body.  The two `static_assert`s demand `!(a % b)`, that is `a % b == 0`,
and an operand `b == 0` of `%` or `/` is not a constant expression.  `Operator` is a template
argument that the body never consults. -/
def SimtPolicy (WarpShape : GemmShape) (Operator_ : Operator) (layout : Layout)
    (MmaSimtPolicy_ : MmaSimtPolicy) : Except String Policy :=
  match layout with
  | Layout.ColumnMajor => Except.error "incomplete type"
  | Layout.RowMajor =>
    if MmaSimtPolicy_.WarpShape.kRow = 0 then
      Except.error "division by zero in a constant expression"
    else if ¬ (WarpShape.kM.tmod MmaSimtPolicy_.WarpShape.kRow = 0) then
      Except.error "Divisibility"
    else if MmaSimtPolicy_.WarpShape.kColumn = 0 then
      Except.error "division by zero in a constant expression"
    else if ¬ (WarpShape.kN.tmod MmaSimtPolicy_.WarpShape.kColumn = 0) then
      Except.error "Divisibility"
    else
      let kIterations := WarpShape.kM.tdiv MmaSimtPolicy_.WarpShape.kRow
      let kElementsPerIteration := WarpShape.kN.tdiv MmaSimtPolicy_.WarpShape.kColumn
      let kAccumulatorElementCount := kElementsPerIteration * kIterations
      let kElementsPerAccess := MmaSimtPolicy_.LaneMmaShape.kN
      let kRowsPerIteration := MmaSimtPolicy_.WarpShape.kRow
      if kElementsPerAccess = 0 then
        Except.error "division by zero in a constant expression"
      else
        let kAccessesPerIteration := kElementsPerIteration.tdiv kElementsPerAccess
        Except.ok ⟨kIterations, kElementsPerIteration, kAccumulatorElementCount,
          kElementsPerAccess, kRowsPerIteration, kAccessesPerIteration⟩

/-! ## `fragment_iterator_simt.h` -/

/-- The data members of `FragmentIteratorSimt`: `accumulators_` points at the accumulator tile
handed to the constructor (the list is that tile), `index_` is the internal index. -/
structure FragmentIteratorSimt (α : Type) where
  accumulators_ : List α
  index_ : Int
deriving DecidableEq

/-- The three array types the class declares, `Fragment`, `AccumulatorTile` and the private
`AccessType`, have the extents `kElementsPerIteration`, `kAccumulatorElementCount` and
`kElementsPerAccess`; an array type exists only for a non-negative extent. -/
def FragmentIteratorSimt.Instantiable (P : Policy) : Prop :=
  0 ≤ P.kElementsPerIteration ∧ 0 ≤ P.kAccumulatorElementCount ∧ 0 ≤ P.kElementsPerAccess

instance (P : Policy) : Decidable (FragmentIteratorSimt.Instantiable P) := by
  unfold FragmentIteratorSimt.Instantiable
  infer_instance

/-- The argument `accum` has type `AccumulatorTile`: `kAccumulatorElementCount` elements. -/
def IsAccumulatorTile {α : Type} (P : Policy) (accum : List α) : Prop :=
  (accum.length : Int) = P.kAccumulatorElementCount

/-- The argument `frag` has type `Fragment`: `kElementsPerIteration` elements. -/
def IsFragment {α : Type} (P : Policy) (frag : List α) : Prop :=
  (frag.length : Int) = P.kElementsPerIteration

instance {α : Type} (P : Policy) (accum : List α) : Decidable (IsAccumulatorTile P accum) := by
  unfold IsAccumulatorTile
  infer_instance

instance {α : Type} (P : Policy) (frag : List α) : Decidable (IsFragment P frag) := by
  unfold IsFragment
  infer_instance

/-- The constructor `FragmentIteratorSimt(AccumulatorTile const& accum)`. -/
def FragmentIteratorSimt.ctor {α : Type} (accum : List α) : FragmentIteratorSimt α :=
  ⟨accum, 0⟩

/-- The call `FragmentIteratorSimt(accum)` as the compiler checks it: the one constructor has
the parameter type `AccumulatorTile const&`, an `Array` of exactly `kAccumulatorElementCount`
elements, and an array of any other length is a different type that does not convert to it. -/
def FragmentIteratorSimt.construct {α : Type} (P : Policy) (accum : List α) :
    Except String (FragmentIteratorSimt α) :=
  if (accum.length : Int) = P.kAccumulatorElementCount then
    Except.ok (FragmentIteratorSimt.ctor accum)
  else
    Except.error "no matching constructor"

/-- The member `operator++`: `++index_`. -/
def FragmentIteratorSimt.operator_increment {α : Type} (self : FragmentIteratorSimt α) :
    FragmentIteratorSimt α :=
  ⟨self.accumulators_, self.index_ + 1⟩

/-- The member `operator--`: `--index_`. -/
def FragmentIteratorSimt.operator_decrement {α : Type} (self : FragmentIteratorSimt α) :
    FragmentIteratorSimt α :=
  ⟨self.accumulators_, self.index_ - 1⟩

/-- The read `ptr[k]` through a pointer to `AccessType` into the array `mem`: the `width`
elements from element `k * width` on.  Outside `mem` the read is undefined. -/
def readAccess {α : Type} (mem : List α) (width k : Int) : Option (List α) :=
  if 0 ≤ k * width ∧ k * width + width ≤ (mem.length : Int) then
    some ((mem.drop (k * width).toNat).take width.toNat)
  else
    none

/-- The write `ptr[k] = v` through a pointer to `AccessType` into the array `mem`: the
`width` elements from element `k * width` on are replaced by `v`.  Outside `mem` the write is
undefined. -/
def writeAccess {α : Type} (mem : List α) (width k : Int) (v : List α) : Option (List α) :=
  if 0 ≤ k * width ∧ k * width + width ≤ (mem.length : Int) then
    some (mem.take (k * width).toNat ++ v ++ mem.drop ((k * width).toNat + width.toNat))
  else
    none

/-- The loop of `load`, `count` more rounds from loop variable `n` on.  The state is the
iterator together with the caller's fragment; one round is
`frag_ptr[n] = accumulators_[index_ * kAccessesPerIteration + n]`. -/
def FragmentIteratorSimt.loadLoop {α : Type} (P : Policy) :
    Nat → Int → FragmentIteratorSimt α × List α → Option (FragmentIteratorSimt α × List α)
  | 0, _, st => some st
  | count + 1, n, st =>
    let accumulator_access_offset := st.1.index_ * P.kAccessesPerIteration + n
    match readAccess st.1.accumulators_ P.kElementsPerAccess accumulator_access_offset with
    | none => none
    | some v =>
      match writeAccess st.2 P.kElementsPerAccess n v with
      | none => none
      | some frag' => FragmentIteratorSimt.loadLoop P count (n + 1) (st.1, frag')

/-- The member `load(Fragment& frag, int index_offset = 0) const`.  The loop runs for
`n = 0, ..., kAccessesPerIteration - 1`.  The result is the state after the call: the iterator
and the fragment.  The body never reads `index_offset`. -/
def FragmentIteratorSimt.load {α : Type} (P : Policy) (self : FragmentIteratorSimt α)
    (frag : List α) (index_offset : Int) : Option (FragmentIteratorSimt α × List α) :=
  FragmentIteratorSimt.loadLoop P P.kAccessesPerIteration.toNat 0 (self, frag)

/-- One call of a stepping operator on the iterator. -/
inductive Move where
  | increment
  | decrement
deriving DecidableEq

/-- The iterator after one call of `operator++` or `operator--`. -/
def FragmentIteratorSimt.step {α : Type} (self : FragmentIteratorSimt α) :
    Move → FragmentIteratorSimt α
  | Move.increment => self.operator_increment
  | Move.decrement => self.operator_decrement

/-- The iterator after a sequence of calls of `operator++` and `operator--`, first call
first. -/
def FragmentIteratorSimt.steps {α : Type} (self : FragmentIteratorSimt α)
    (moves : List Move) : FragmentIteratorSimt α :=
  moves.foldl FragmentIteratorSimt.step self

/-- The traversal of a tile: `rounds` times `load` into the fragment buffer with the default
offset 0, keep the fragment just loaded, then `operator++`.  The result is the list of the
fragments in the order loaded; it is `none` as soon as one `load` is undefined. -/
def FragmentIteratorSimt.walk {α : Type} (P : Policy) :
    Nat → FragmentIteratorSimt α → List α → Option (List (List α))
  | 0, _, _ => some []
  | rounds + 1, self, frag =>
    match FragmentIteratorSimt.load P self frag 0 with
    | none => none
    | some r =>
      match FragmentIteratorSimt.walk P rounds r.1.operator_increment r.2 with
      | none => none
      | some rest => some (r.2 :: rest)

end warp

namespace threadblock

/-! ## `convolution_epilogue_tensor_op.h` -/

/-- The layout tags of the destination and bias tensors; `layout::TensorNCxHWx<Interleaved>`
is the one the sources specialise on. -/
inductive TensorLayout where
  | TensorNCxHWx (Interleaved : Int)
  | TensorNHWC
deriving DecidableEq

/-- The `static int const` members of an instantiated `ConvolutionEpilogueTensorOp`.  Its
member types (thread map, tile iterators, `Epilogue`) are aliases of templates declared in
other headers and are not part of this record. -/
structure EpilogueConstants where
  kElementsPerAccess : Int
  kPartitionsK : Int
  kInterleaved : Int
deriving DecidableEq

/-- Instantiation of `ConvolutionEpilogueTensorOp<Shape, LayoutDst, LayoutBias,
WarpMmaTensorOp, OutputOp, ElementsPerAccess>`, of the warp-level operator only its `Shape`.

Only the partial specialisation in which both layouts are `layout::TensorNCxHWx<Interleaved>`
with one and the same `Interleaved` is defined; the primary template is declared without a
body.  `kPartitionsK` is `Shape::kK / WarpMmaTensorOp::Shape::kK`, and a divisor 0 is not a
constant expression.  The body holds no `static_assert`. -/
def ConvolutionEpilogueTensorOp (Shape : GemmShape) (LayoutDst LayoutBias : TensorLayout)
    (WarpMmaTensorOp_Shape : GemmShape) (ElementsPerAccess : Int) :
    Except String EpilogueConstants :=
  match LayoutDst, LayoutBias with
  | TensorLayout.TensorNCxHWx Interleaved, TensorLayout.TensorNCxHWx Interleaved' =>
    if Interleaved = Interleaved' then
      if WarpMmaTensorOp_Shape.kK = 0 then
        Except.error "division by zero in a constant expression"
      else
        Except.ok ⟨ElementsPerAccess, Shape.kK.tdiv WarpMmaTensorOp_Shape.kK, Interleaved⟩
    else
      Except.error "incomplete type"
  | _, _ => Except.error "incomplete type"

end threadblock
end epilogue
end cutlass

namespace cutlass.epilogue.warp

/-! ## Facts about `SimtPolicy` -/

/-- The instantiation succeeds exactly for the row-major layout, non-zero divisors and the two
asserted divisibilities, and then yields the constants computed by the member initialisers. -/
theorem SimtPolicy_eq_ok_iff (ws : GemmShape) (op : Operator) (l : Layout) (mp : MmaSimtPolicy)
    (P : Policy) :
    SimtPolicy ws op l mp = Except.ok P ↔
      l = Layout.RowMajor ∧ mp.WarpShape.kRow ≠ 0 ∧ ws.kM.tmod mp.WarpShape.kRow = 0 ∧
      mp.WarpShape.kColumn ≠ 0 ∧ ws.kN.tmod mp.WarpShape.kColumn = 0 ∧
      mp.LaneMmaShape.kN ≠ 0 ∧
      P = ⟨ws.kM.tdiv mp.WarpShape.kRow, ws.kN.tdiv mp.WarpShape.kColumn,
        ws.kN.tdiv mp.WarpShape.kColumn * ws.kM.tdiv mp.WarpShape.kRow,
        mp.LaneMmaShape.kN, mp.WarpShape.kRow,
        (ws.kN.tdiv mp.WarpShape.kColumn).tdiv mp.LaneMmaShape.kN⟩ := by
  cases l with
  | ColumnMajor => simp [SimtPolicy]
  | RowMajor =>
    simp only [SimtPolicy]
    by_cases h1 : mp.WarpShape.kRow = 0
    · simp [h1]
    by_cases h2 : ws.kM.tmod mp.WarpShape.kRow = 0
    swap
    · simp [h1, h2]
    by_cases h3 : mp.WarpShape.kColumn = 0
    · simp [h1, h2, h3]
    by_cases h4 : ws.kN.tmod mp.WarpShape.kColumn = 0
    swap
    · simp [h1, h2, h3, h4]
    by_cases h5 : mp.LaneMmaShape.kN = 0
    · simp [h1, h2, h3, h4, h5]
    simp only [h1, h2, h3, h4, h5, if_false, not_true_eq_false, not_false_eq_true, ne_eq,
      true_and, Except.ok.injEq]
    exact eq_comm

/-! ## Facts about the accesses of `load` -/

theorem readAccess_natCast {α : Type} (mem : List α) (E k : Nat)
    (h : (k + 1) * E ≤ mem.length) :
    readAccess mem (E : Int) (k : Int) = some ((mem.drop (k * E)).take E) := by
  have h1 : (0 : Int) ≤ (k : Int) * (E : Int) := by positivity
  have h2 : (k : Int) * (E : Int) + (E : Int) ≤ (mem.length : Int) := by
    have : ((k + 1) * E : Nat) = (k : Int) * (E : Int) + (E : Int) := by push_cast; ring
    rw [← this]; exact_mod_cast h
  have h3 : ((k : Int) * (E : Int)).toNat = k * E := by
    rw [← Int.natCast_mul]; exact Int.toNat_natCast _
  simp only [readAccess, h1, h2, and_self, if_true, h3, Int.toNat_natCast]

theorem writeAccess_natCast {α : Type} (mem : List α) (E k : Nat) (v : List α)
    (h : (k + 1) * E ≤ mem.length) :
    writeAccess mem (E : Int) (k : Int) v =
      some (mem.take (k * E) ++ v ++ mem.drop (k * E + E)) := by
  have h1 : (0 : Int) ≤ (k : Int) * (E : Int) := by positivity
  have h2 : (k : Int) * (E : Int) + (E : Int) ≤ (mem.length : Int) := by
    have : ((k + 1) * E : Nat) = (k : Int) * (E : Int) + (E : Int) := by push_cast; ring
    rw [← this]; exact_mod_cast h
  have h3 : ((k : Int) * (E : Int)).toNat = k * E := by
    rw [← Int.natCast_mul]; exact Int.toNat_natCast _
  simp only [writeAccess, h1, h2, and_self, if_true, h3, Int.toNat_natCast]

/-- Element `j` of the vector read at access `k`. -/
theorem getElem?_read {α : Type} (mem : List α) (E k j : Nat) :
    ((mem.drop (k * E)).take E)[j]? = if j < E then mem[k * E + j]? else none := by
  by_cases hj : j < E
  · simp [hj, List.getElem?_take, List.getElem?_drop]
  · simp [hj, List.getElem?_take]

/-- Element `j` of the array after the vector `v` has been written at access `k`. -/
theorem getElem?_write {α : Type} (mem v : List α) (E k j : Nat)
    (hv : v.length = E) (h : (k + 1) * E ≤ mem.length) :
    (mem.take (k * E) ++ v ++ mem.drop (k * E + E))[j]? =
      if k * E ≤ j ∧ j < k * E + E then v[j - k * E]? else mem[j]? := by
  have hk : k * E + E ≤ mem.length := by rw [Nat.add_mul, Nat.one_mul] at h; exact h
  have hlen : (mem.take (k * E)).length = k * E := by
    rw [List.length_take]; omega
  by_cases h1 : j < k * E
  · have : ¬ (k * E ≤ j ∧ j < k * E + E) := by omega
    rw [if_neg this, List.append_assoc, List.getElem?_append_left (by omega),
      List.getElem?_take_of_lt h1]
  · by_cases h2 : j < k * E + E
    · have : k * E ≤ j ∧ j < k * E + E := by omega
      rw [if_pos this, List.append_assoc, List.getElem?_append_right (by omega), hlen,
        List.getElem?_append_left (by omega)]
    · have : ¬ (k * E ≤ j ∧ j < k * E + E) := by omega
      rw [if_neg this, List.getElem?_append_right (by simp; omega), List.getElem?_drop]
      simp only [List.length_append, hlen, hv]
      congr 1
      omega

theorem length_write {α : Type} (mem v : List α) (E k : Nat)
    (hv : v.length = E) (h : (k + 1) * E ≤ mem.length) :
    (mem.take (k * E) ++ v ++ mem.drop (k * E + E)).length = mem.length := by
  have hk : k * E + E ≤ mem.length := by rw [Nat.add_mul, Nat.one_mul] at h; exact h
  simp only [List.length_append, List.length_take, List.length_drop, hv]
  omega

/-- The loop of `load` while every access stays inside both arrays: it terminates normally,
leaves the iterator alone, and has copied the elements `n * E .. (n + count) * E - 1` of the
fragment from the tile, displaced by `b * E`, where `b` is `index_ * kAccessesPerIteration`. -/
theorem loadLoop_spec {α : Type} (P : Policy) (self : FragmentIteratorSimt α) (E b : Nat)
    (hE : P.kElementsPerAccess = (E : Int))
    (hb : self.index_ * P.kAccessesPerIteration = (b : Int)) :
    ∀ (count n : Nat) (frag : List α),
      (n + count) * E ≤ frag.length →
      (b + n + count) * E ≤ self.accumulators_.length →
      ∃ frag', FragmentIteratorSimt.loadLoop P count (n : Int) (self, frag) = some (self, frag') ∧
        frag'.length = frag.length ∧
        ∀ j, frag'[j]? =
          if n * E ≤ j ∧ j < (n + count) * E then self.accumulators_[b * E + j]? else frag[j]? := by
  intro count
  induction count with
  | zero =>
    intro n frag _ _
    refine ⟨frag, rfl, rfl, ?_⟩
    intro j
    have : ¬ (n * E ≤ j ∧ j < (n + 0) * E) := by simp
    rw [if_neg this]
  | succ c ih =>
    intro n frag hf ht
    have hf1 : n * E + c * E + E ≤ frag.length := by
      simpa [Nat.add_mul, Nat.add_assoc] using hf
    have ht1 : b * E + n * E + c * E + E ≤ self.accumulators_.length := by
      simpa [Nat.add_mul, Nat.add_assoc] using ht
    have hrd : (b + n + 1) * E ≤ self.accumulators_.length := by
      simp only [Nat.add_mul, Nat.one_mul]; omega
    have hwr : (n + 1) * E ≤ frag.length := by
      simp only [Nat.add_mul, Nat.one_mul]; omega
    have hoff : self.index_ * P.kAccessesPerIteration + (n : Int) = ((b + n : Nat) : Int) := by
      rw [hb]; push_cast; rfl
    have hvlen : ((self.accumulators_.drop ((b + n) * E)).take E).length = E := by
      rw [List.length_take, List.length_drop]
      simp only [Nat.add_mul, Nat.one_mul] at hrd
      simp only [Nat.add_mul]
      omega
    obtain ⟨frag', hrun, hlen, hget⟩ := ih (n + 1)
      (frag.take (n * E) ++ (self.accumulators_.drop ((b + n) * E)).take E
        ++ frag.drop (n * E + E))
      (by rw [length_write frag _ E n hvlen hwr]; simp only [Nat.add_mul, Nat.one_mul]; omega)
      (by simp only [Nat.add_mul, Nat.one_mul]; omega)
    refine ⟨frag', ?_, ?_, ?_⟩
    · simp only [FragmentIteratorSimt.loadLoop, hE, hoff]
      rw [readAccess_natCast _ E (b + n) hrd]
      simp only
      rw [writeAccess_natCast _ E n _ hwr]
      simp only
      have hn1 : ((n : Int) + 1) = ((n + 1 : Nat) : Int) := by push_cast; rfl
      rw [hn1]
      exact hrun
    · rw [hlen, length_write frag _ E n hvlen hwr]
    · intro j
      rw [hget j, getElem?_write frag _ E n j hvlen hwr, getElem?_read]
      simp only [Nat.add_mul, Nat.one_mul]
      by_cases h1 : n * E + E ≤ j ∧ j < n * E + E + c * E
      · have h2 : n * E ≤ j ∧ j < n * E + (c * E + E) := by omega
        rw [if_pos h1, if_pos h2]
      · rw [if_neg h1]
        by_cases h3 : n * E ≤ j ∧ j < n * E + E
        · have h2 : n * E ≤ j ∧ j < n * E + (c * E + E) := by omega
          have h4 : j - n * E < E := by omega
          rw [if_pos h3, if_pos h2, if_pos h4]
          congr 1
          omega
        · have h2 : ¬ (n * E ≤ j ∧ j < n * E + (c * E + E)) := by omega
          rw [if_neg h3, if_neg h2]

/-- The constants of an accepted policy whose array types exist, as natural numbers: the
access width is positive and the number of accesses is the truncated quotient. -/
theorem policy_nat_view (ws : GemmShape) (op : Operator) (l : Layout) (mp : MmaSimtPolicy)
    (P : Policy) (hP : SimtPolicy ws op l mp = Except.ok P)
    (hinst : FragmentIteratorSimt.Instantiable P) :
    ∃ EPI E A : Nat, P.kElementsPerIteration = (EPI : Int) ∧ P.kElementsPerAccess = (E : Int) ∧
      P.kAccessesPerIteration = (A : Int) ∧ 0 < E ∧ A = EPI / E ∧
      P.kAccumulatorElementCount = (EPI : Int) * P.kIterations := by
  rw [SimtPolicy_eq_ok_iff] at hP
  obtain ⟨-, -, -, -, -, h5, rfl⟩ := hP
  obtain ⟨h1, -, h3⟩ := hinst
  simp only at h1 h3
  obtain ⟨EPI, hEPI⟩ := Int.eq_ofNat_of_zero_le h1
  obtain ⟨E, hE⟩ := Int.eq_ofNat_of_zero_le h3
  refine ⟨EPI, E, EPI / E, hEPI, hE, ?_, ?_, rfl, ?_⟩
  · simp only [hEPI, hE]
    rw [Int.tdiv_eq_ediv (by positivity) (by positivity)]
    norm_cast
  · rw [hE] at h5
    have : E ≠ 0 := by
      intro h0; apply h5; simp [h0]
    omega
  · simp only [hEPI]

/-- The effect of `load` at a position `p` inside the tile, in natural numbers: the call
returns, the iterator is as before, the first `A * E` elements of the fragment are the tile
elements from `p * A * E` on, and the other elements of the fragment are as before. -/
theorem load_spec_nat {α : Type} (P : Policy) (self : FragmentIteratorSimt α) (frag : List α)
    (off : Int) (EPI E A I p : Nat)
    (hE : P.kElementsPerAccess = (E : Int)) (hA : P.kAccessesPerIteration = (A : Int))
    (hAE : A * E ≤ EPI) (hfrag : frag.length = EPI)
    (htile : self.accumulators_.length = EPI * I) (hidx : self.index_ = (p : Int))
    (hp : p < I) :
    ∃ frag', FragmentIteratorSimt.load P self frag off = some (self, frag') ∧
      frag'.length = frag.length ∧
      ∀ j, frag'[j]? = if j < A * E then self.accumulators_[p * A * E + j]? else frag[j]? := by
  have hb : self.index_ * P.kAccessesPerIteration = ((p * A : Nat) : Int) := by
    rw [hidx, hA]; push_cast; rfl
  have h1 : (0 + A) * E ≤ frag.length := by rw [Nat.zero_add, hfrag]; exact hAE
  have h2 : (p * A + 0 + A) * E ≤ self.accumulators_.length := by
    rw [htile]
    calc (p * A + 0 + A) * E = (p + 1) * (A * E) := by ring
      _ ≤ I * EPI := Nat.mul_le_mul hp hAE
      _ = EPI * I := Nat.mul_comm _ _
  obtain ⟨frag', hrun, hlen, hget⟩ := loadLoop_spec P self E (p * A) hE hb A 0 frag h1 h2
  refine ⟨frag', ?_, hlen, ?_⟩
  · simp only [FragmentIteratorSimt.load, hA, Int.toNat_natCast]
    exact_mod_cast hrun
  · intro j
    rw [hget j]
    simp only [Nat.zero_mul, Nat.zero_le, true_and, Nat.zero_add]

/-- The natural-number view of an accepted policy together with a tile of its type and a
position inside the tile. -/
theorem in_range_nat_view {α : Type} (ws : GemmShape) (op : Operator) (l : Layout)
    (mp : MmaSimtPolicy) (P : Policy) (tile : List α) (p : Int)
    (hP : SimtPolicy ws op l mp = Except.ok P)
    (hinst : FragmentIteratorSimt.Instantiable P) (htile : IsAccumulatorTile P tile)
    (hp0 : 0 ≤ p) (hp1 : p < P.kIterations) :
    ∃ EPI E A I pn : Nat, P.kElementsPerIteration = (EPI : Int) ∧
      P.kElementsPerAccess = (E : Int) ∧ P.kAccessesPerIteration = (A : Int) ∧
      P.kIterations = (I : Int) ∧ p = (pn : Int) ∧ 0 < E ∧ A = EPI / E ∧ A * E ≤ EPI ∧
      pn < I ∧ tile.length = EPI * I := by
  obtain ⟨EPI, E, A, hEPI, hE, hA, hEpos, hAdef, hcount⟩ :=
    policy_nat_view ws op l mp P hP hinst
  obtain ⟨pn, hpn⟩ := Int.eq_ofNat_of_zero_le hp0
  obtain ⟨I, hI⟩ := Int.eq_ofNat_of_zero_le (Int.le_trans hp0 (Int.le_of_lt hp1))
  refine ⟨EPI, E, A, I, pn, hEPI, hE, hA, hI, hpn, hEpos, hAdef, ?_, ?_, ?_⟩
  · rw [hAdef]; exact Nat.div_mul_le_self EPI E
  · rw [hpn, hI] at hp1; exact_mod_cast hp1
  · unfold IsAccumulatorTile at htile
    rw [hcount, hI] at htile
    exact_mod_cast htile

/-- The loop of `load` hands back the iterator it was given. -/
theorem loadLoop_fst {α : Type} (P : Policy) :
    ∀ (count : Nat) (n : Int) (st r : FragmentIteratorSimt α × List α),
      FragmentIteratorSimt.loadLoop P count n st = some r → r.1 = st.1 := by
  intro count
  induction count with
  | zero =>
    intro n st r h
    simp only [FragmentIteratorSimt.loadLoop, Option.some.injEq] at h
    rw [← h]
  | succ c ih =>
    intro n st r h
    simp only [FragmentIteratorSimt.loadLoop] at h
    cases hr : readAccess st.1.accumulators_ P.kElementsPerAccess
        (st.1.index_ * P.kAccessesPerIteration + n) with
    | none => rw [hr] at h; cases h
    | some v =>
      rw [hr] at h
      simp only at h
      cases hw : writeAccess st.2 P.kElementsPerAccess n v with
      | none => rw [hw] at h; cases h
      | some frag' =>
        rw [hw] at h
        exact ih (n + 1) (st.1, frag') r h

/-- The body of `load` never reads `index_offset`. -/
theorem load_index_offset_irrelevant {α : Type} (P : Policy) (self : FragmentIteratorSimt α)
    (frag : List α) (k k' : Int) :
    FragmentIteratorSimt.load P self frag k = FragmentIteratorSimt.load P self frag k' :=
  rfl

/-- The index after a sequence of steps from any iterator: one up for each increment, one down
for each decrement; the referenced tile stays. -/
theorem steps_from {α : Type} (moves : List Move) :
    ∀ self : FragmentIteratorSimt α,
      (self.steps moves).index_ =
          self.index_ + (moves.count Move.increment : Int) - (moves.count Move.decrement : Int) ∧
        (self.steps moves).accumulators_ = self.accumulators_ := by
  induction moves with
  | nil =>
    intro self
    simp [FragmentIteratorSimt.steps]
  | cons m ms ih =>
    intro self
    have hcons : self.steps (m :: ms) = (self.step m).steps ms := rfl
    rw [hcons]
    obtain ⟨h1, h2⟩ := ih (self.step m)
    cases m with
    | increment =>
      refine ⟨?_, h2⟩
      rw [h1]
      simp only [FragmentIteratorSimt.step, FragmentIteratorSimt.operator_increment,
        List.count_cons_self, List.count_cons_of_ne (by decide : Move.decrement ≠ Move.increment)]
      push_cast
      ring
    | decrement =>
      refine ⟨?_, h2⟩
      rw [h1]
      simp only [FragmentIteratorSimt.step, FragmentIteratorSimt.operator_decrement,
        List.count_cons_self, List.count_cons_of_ne (by decide : Move.increment ≠ Move.decrement)]
      push_cast
      ring

/-! ## The claims -/

/-- C1: `load(fragment, k)` is claimed to yield the fragment of position `p + k`.  On the
warp shape 2 x 4 with lanes 1 x 2 and lane width 2 (two positions, fragments of two elements)
and the tile `[10, 11, 20, 21]`, the call with offset 1 at position 0 yields `[10, 11]`, the
fragment of position 0, while position 1 holds `[20, 21]`. -/
theorem load_with_offset_one_reads_current_position :
    SimtPolicy ⟨2, 4, 1⟩ ⟨4⟩ Layout.RowMajor ⟨⟨1, 2⟩, ⟨1, 2, 1⟩⟩
        = Except.ok ⟨2, 2, 4, 2, 1, 1⟩ ∧
      FragmentIteratorSimt.load ⟨2, 2, 4, 2, 1, 1⟩
          (FragmentIteratorSimt.ctor [10, 11, 20, 21]) [0, 0] 1
        = some (⟨[10, 11, 20, 21], 0⟩, [10, 11]) ∧
      FragmentIteratorSimt.load ⟨2, 2, 4, 2, 1, 1⟩
          (FragmentIteratorSimt.ctor [10, 11, 20, 21]).operator_increment [0, 0] 0
        = some (⟨[10, 11, 20, 21], 1⟩, [20, 21]) :=
  ⟨rfl, rfl, rfl⟩

/-- C2, as stated, fails: the warp shape 8 x 12 with lanes 4 x 4 and lane width 2 passes both
divisibility checks of `SimtPolicy`, and its 3 elements per iteration leave the remainder 1
against 2 elements per access. -/
theorem SimtPolicy_accepts_fractional_access_count :
    SimtPolicy ⟨8, 12, 1⟩ ⟨6⟩ Layout.RowMajor ⟨⟨4, 4⟩, ⟨1, 2, 1⟩⟩
        = Except.ok ⟨2, 3, 6, 2, 4, 1⟩ ∧
      (⟨2, 3, 6, 2, 4, 1⟩ : Policy).kElementsPerIteration.tmod
        (⟨2, 3, 6, 2, 4, 1⟩ : Policy).kElementsPerAccess = 1 :=
  ⟨rfl, rfl⟩

/-- C2, amended: for every shape `SimtPolicy` accepts,
`elements_per_iteration % elements_per_access == 0` holds exactly when `N` is a multiple of
lane-cols times the lane micro-tile width. -/
theorem SimtPolicy_access_remainder_zero_iff (ws : GemmShape) (op : Operator) (l : Layout)
    (mp : MmaSimtPolicy) (P : Policy) (hP : SimtPolicy ws op l mp = Except.ok P) :
    P.kElementsPerIteration.tmod P.kElementsPerAccess = 0 ↔
      mp.WarpShape.kColumn * mp.LaneMmaShape.kN ∣ ws.kN := by
  rw [SimtPolicy_eq_ok_iff] at hP
  obtain ⟨-, -, -, h3, h4, -, rfl⟩ := hP
  simp only
  have hN : mp.WarpShape.kColumn * ws.kN.tdiv mp.WarpShape.kColumn = ws.kN :=
    Int.mul_tdiv_cancel_of_tmod_eq_zero h4
  rw [← Int.dvd_iff_tmod_eq_zero]
  conv_rhs => rw [← hN]
  exact (mul_dvd_mul_iff_left h3).symm

/-- C2, amended, at the warp shape 8 x 16 with lanes 4 x 4 and lane width 2. -/
theorem SimtPolicy_access_remainder_zero_iff_witness :
    SimtPolicy ⟨8, 16, 1⟩ ⟨8⟩ Layout.RowMajor ⟨⟨4, 4⟩, ⟨1, 2, 1⟩⟩
        = Except.ok ⟨2, 4, 8, 2, 4, 2⟩ ∧
      ((4 : Int).tmod 2 = 0 ↔ (4 : Int) * 2 ∣ 16) :=
  ⟨rfl, SimtPolicy_access_remainder_zero_iff ⟨8, 16, 1⟩ ⟨8⟩ Layout.RowMajor
    ⟨⟨4, 4⟩, ⟨1, 2, 1⟩⟩ ⟨2, 4, 8, 2, 4, 2⟩ rfl⟩

/-- C3: for an accepted shape in which `elements_per_access` divides
`elements_per_iteration`, a tile of the policy and a position `0 <= p < iterations`, `load`
with offset 0 returns, and afterwards `fragment[j] = tile[p * elements_per_iteration + j]` for
every `j < elements_per_iteration`. -/
theorem load_yields_contiguous_chunk {α : Type} (ws : GemmShape) (op : Operator) (l : Layout)
    (mp : MmaSimtPolicy) (P : Policy) (tile frag : List α) (p : Int)
    (hP : SimtPolicy ws op l mp = Except.ok P)
    (hinst : FragmentIteratorSimt.Instantiable P)
    (htile : IsAccumulatorTile P tile) (hfrag : IsFragment P frag)
    (hdiv : P.kElementsPerIteration.tmod P.kElementsPerAccess = 0)
    (hp0 : 0 ≤ p) (hp1 : p < P.kIterations) :
    ∃ frag', FragmentIteratorSimt.load P ⟨tile, p⟩ frag 0 = some (⟨tile, p⟩, frag') ∧
      IsFragment P frag' ∧
      ∀ j : Nat, (j : Int) < P.kElementsPerIteration →
        ∃ x, frag'[j]? = some x ∧
          tile[(p * P.kElementsPerIteration).toNat + j]? = some x := by
  obtain ⟨EPI, E, A, I, pn, hEPI, hE, hA, hI, hpn, hEpos, hAdef, hAE, hpI, hlen⟩ :=
    in_range_nat_view ws op l mp P tile p hP hinst htile hp0 hp1
  have hfl : frag.length = EPI := by
    unfold IsFragment at hfrag; rw [hEPI] at hfrag; exact_mod_cast hfrag
  have hdvd : E ∣ EPI := by
    rw [hEPI, hE] at hdiv
    have := Int.dvd_of_tmod_eq_zero hdiv
    exact_mod_cast this
  have hfull : A * E = EPI := by rw [hAdef]; exact Nat.div_mul_cancel hdvd
  obtain ⟨frag', hrun, hlen', hget⟩ :=
    load_spec_nat P ⟨tile, p⟩ frag 0 EPI E A I pn hE hA hAE hfl hlen hpn hpI
  refine ⟨frag', hrun, ?_, ?_⟩
  · unfold IsFragment; rw [hlen', hfl, hEPI]
  · intro j hj
    rw [hEPI] at hj
    have hj' : j < EPI := by exact_mod_cast hj
    have hidx : (p * P.kElementsPerIteration).toNat = pn * EPI := by
      rw [hpn, hEPI, ← Int.natCast_mul]; exact Int.toNat_natCast _
    have hin : pn * EPI + j < tile.length := by
      rw [hlen]
      calc pn * EPI + j < pn * EPI + EPI := by omega
        _ = EPI * (pn + 1) := by ring
        _ ≤ EPI * I := Nat.mul_le_mul_left _ hpI
    refine ⟨tile[pn * EPI + j], ?_, ?_⟩
    · rw [hget j, hfull, if_pos hj']
      simp only
      rw [Nat.mul_assoc, hfull]
      exact List.getElem?_eq_getElem hin
    · rw [hidx]
      exact List.getElem?_eq_getElem hin

/-- C3 at the warp shape 8 x 16 with lanes 4 x 4 and lane width 2, position 1. -/
theorem load_yields_contiguous_chunk_witness :
    SimtPolicy ⟨8, 16, 1⟩ ⟨8⟩ Layout.RowMajor ⟨⟨4, 4⟩, ⟨1, 2, 1⟩⟩
        = Except.ok ⟨2, 4, 8, 2, 4, 2⟩ ∧
      ∃ frag', FragmentIteratorSimt.load ⟨2, 4, 8, 2, 4, 2⟩
          ⟨[10, 11, 12, 13, 20, 21, 22, 23], 1⟩ [0, 0, 0, 0] 0
            = some (⟨[10, 11, 12, 13, 20, 21, 22, 23], 1⟩, frag') ∧
        IsFragment ⟨2, 4, 8, 2, 4, 2⟩ frag' ∧
        ∀ j : Nat, (j : Int) < (⟨2, 4, 8, 2, 4, 2⟩ : Policy).kElementsPerIteration →
          ∃ x, frag'[j]? = some x ∧
            [10, 11, 12, 13, 20, 21, 22, 23][
              ((1 : Int) * (⟨2, 4, 8, 2, 4, 2⟩ : Policy).kElementsPerIteration).toNat + j]?
              = some x :=
  ⟨rfl, load_yields_contiguous_chunk ⟨8, 16, 1⟩ ⟨8⟩ Layout.RowMajor ⟨⟨4, 4⟩, ⟨1, 2, 1⟩⟩
    ⟨2, 4, 8, 2, 4, 2⟩ [10, 11, 12, 13, 20, 21, 22, 23] [0, 0, 0, 0] 1 rfl
    ⟨by decide, by decide, by decide⟩ rfl rfl rfl (by decide) (by decide)⟩

/-- C4: for every shape `SimtPolicy` accepts, `iterations = M / lane-rows` and
`elements_per_iteration = N / lane-cols`, both quotients exact,
`elements_per_access` is the lane micro-tile width,
`accesses_per_iteration = elements_per_iteration / elements_per_access`, and
`iterations * elements_per_iteration == accumulator_element_count`. -/
theorem SimtPolicy_constants (ws : GemmShape) (op : Operator) (l : Layout)
    (mp : MmaSimtPolicy) (P : Policy) (hP : SimtPolicy ws op l mp = Except.ok P) :
    P.kIterations = ws.kM.tdiv mp.WarpShape.kRow ∧
      P.kIterations * mp.WarpShape.kRow = ws.kM ∧
      P.kElementsPerIteration = ws.kN.tdiv mp.WarpShape.kColumn ∧
      P.kElementsPerIteration * mp.WarpShape.kColumn = ws.kN ∧
      P.kElementsPerAccess = mp.LaneMmaShape.kN ∧
      P.kAccessesPerIteration = P.kElementsPerIteration.tdiv P.kElementsPerAccess ∧
      P.kIterations * P.kElementsPerIteration = P.kAccumulatorElementCount := by
  rw [SimtPolicy_eq_ok_iff] at hP
  obtain ⟨-, -, h2, -, h4, -, rfl⟩ := hP
  exact ⟨rfl, Int.tdiv_mul_cancel_of_tmod_eq_zero h2, rfl,
    Int.tdiv_mul_cancel_of_tmod_eq_zero h4, rfl, rfl, Int.mul_comm _ _⟩

/-- C4 at the warp shape 32 x 64 with lanes 4 x 8 and lane width 4. -/
theorem SimtPolicy_constants_witness :
    SimtPolicy ⟨32, 64, 8⟩ ⟨64⟩ Layout.RowMajor ⟨⟨4, 8⟩, ⟨4, 4, 1⟩⟩
        = Except.ok ⟨8, 8, 64, 4, 4, 2⟩ ∧
      ((8 : Int) = (32 : Int).tdiv 4 ∧ (8 : Int) * 4 = 32 ∧ (8 : Int) = (64 : Int).tdiv 8 ∧
        (8 : Int) * 8 = 64 ∧ (4 : Int) = 4 ∧ (2 : Int) = (8 : Int).tdiv 4 ∧
        (8 : Int) * 8 = 64) :=
  ⟨rfl, SimtPolicy_constants ⟨32, 64, 8⟩ ⟨64⟩ Layout.RowMajor ⟨⟨4, 8⟩, ⟨4, 4, 1⟩⟩
    ⟨8, 8, 64, 4, 4, 2⟩ rfl⟩

/-- C5: if `M` is not a multiple of lane-rows or `N` is not a multiple of lane-cols, then
instantiating `SimtPolicy` yields an error, never a policy value. -/
theorem SimtPolicy_rejects_indivisible_shape (ws : GemmShape) (op : Operator) (l : Layout)
    (mp : MmaSimtPolicy)
    (h : ¬ (mp.WarpShape.kRow ∣ ws.kM) ∨ ¬ (mp.WarpShape.kColumn ∣ ws.kN)) :
    (∃ msg, SimtPolicy ws op l mp = Except.error msg) ∧
      ∀ P, SimtPolicy ws op l mp ≠ Except.ok P := by
  have hno : ∀ P, SimtPolicy ws op l mp ≠ Except.ok P := by
    intro P hP
    rw [SimtPolicy_eq_ok_iff] at hP
    obtain ⟨-, -, h2, -, h4, -, -⟩ := hP
    rcases h with h | h
    · exact h (Int.dvd_of_tmod_eq_zero h2)
    · exact h (Int.dvd_of_tmod_eq_zero h4)
  refine ⟨?_, hno⟩
  cases hr : SimtPolicy ws op l mp with
  | error msg => exact ⟨msg, rfl⟩
  | ok P => exact absurd hr (hno P)

/-- C5 at the warp shape 6 x 16 with lanes 4 x 4: 6 is not a multiple of 4. -/
theorem SimtPolicy_rejects_indivisible_shape_witness :
    (¬ ((4 : Int) ∣ 6) ∨ ¬ ((4 : Int) ∣ 16)) ∧
      (∃ msg, SimtPolicy ⟨6, 16, 1⟩ ⟨4⟩ Layout.RowMajor ⟨⟨4, 4⟩, ⟨1, 2, 1⟩⟩
        = Except.error msg) ∧
      ∀ P, SimtPolicy ⟨6, 16, 1⟩ ⟨4⟩ Layout.RowMajor ⟨⟨4, 4⟩, ⟨1, 2, 1⟩⟩ ≠ Except.ok P :=
  ⟨Or.inl (by decide), SimtPolicy_rejects_indivisible_shape ⟨6, 16, 1⟩ ⟨4⟩ Layout.RowMajor
    ⟨⟨4, 4⟩, ⟨1, 2, 1⟩⟩ (Or.inl (by decide))⟩

/-- C6, as stated, fails: an operator with 5 accumulator registers per lane, against
`iterations * elements_per_iteration = 2 * 4 = 8`, is accepted by `SimtPolicy`. -/
theorem SimtPolicy_accepts_mismatched_register_count :
    SimtPolicy ⟨8, 16, 1⟩ ⟨5⟩ Layout.RowMajor ⟨⟨4, 4⟩, ⟨1, 2, 1⟩⟩
        = Except.ok ⟨2, 4, 8, 2, 4, 2⟩ ∧
      (⟨5⟩ : Operator).kAccumulatorRegisters ≠
        (⟨2, 4, 8, 2, 4, 2⟩ : Policy).kIterations *
          (⟨2, 4, 8, 2, 4, 2⟩ : Policy).kElementsPerIteration :=
  ⟨rfl, by decide⟩

/-- The instantiation of `SimtPolicy` is the same for any two operators: the body never
consults the `Operator` argument. -/
theorem SimtPolicy_independent_of_operator (ws : GemmShape) (op op' : Operator) (l : Layout)
    (mp : MmaSimtPolicy) :
    SimtPolicy ws op l mp = SimtPolicy ws op' l mp := by
  cases l <;> rfl

/-- C6, amended: a policy accepted for one operator is accepted, with the same constants, for
every operator, so `SimtPolicy` does not check the register count;
`accumulator_element_count` is `iterations * elements_per_iteration`; and the check is made
where the fragment iterator is constructed from the operator's accumulator array: the
constructor call is accepted when the register count equals
`iterations * elements_per_iteration` and rejected when it differs. -/
theorem register_count_checked_at_construction {α : Type} (ws : GemmShape) (op : Operator)
    (l : Layout) (mp : MmaSimtPolicy) (P : Policy) (accum : List α)
    (hP : SimtPolicy ws op l mp = Except.ok P)
    (hacc : (accum.length : Int) = op.kAccumulatorRegisters) :
    (∀ op' : Operator, SimtPolicy ws op' l mp = Except.ok P) ∧
      P.kAccumulatorElementCount = P.kIterations * P.kElementsPerIteration ∧
      (op.kAccumulatorRegisters = P.kIterations * P.kElementsPerIteration →
        FragmentIteratorSimt.construct P accum
          = Except.ok (FragmentIteratorSimt.ctor accum)) ∧
      (op.kAccumulatorRegisters ≠ P.kIterations * P.kElementsPerIteration →
        ∃ msg, (FragmentIteratorSimt.construct P accum : Except String _)
          = Except.error msg) := by
  have hcount : P.kAccumulatorElementCount = P.kIterations * P.kElementsPerIteration := by
    rw [SimtPolicy_eq_ok_iff] at hP
    obtain ⟨-, -, -, -, -, -, rfl⟩ := hP
    exact Int.mul_comm _ _
  refine ⟨?_, hcount, ?_, ?_⟩
  · intro op'
    rw [SimtPolicy_independent_of_operator ws op' op l mp]
    exact hP
  · intro heq
    have : (accum.length : Int) = P.kAccumulatorElementCount := by rw [hacc, heq, hcount]
    simp only [FragmentIteratorSimt.construct, this, if_true]
  · intro hne
    have : ¬ ((accum.length : Int) = P.kAccumulatorElementCount) := by
      rw [hacc, hcount]; exact hne
    exact ⟨"no matching constructor", by
      simp only [FragmentIteratorSimt.construct, this, if_false]⟩

/-- C6, amended, at the warp shape 8 x 16 with lanes 4 x 4 and lane width 2 and an operator
with 5 accumulator registers: the policy is accepted, and the constructor rejects the
5-element accumulator while it accepts an 8-element one. -/
theorem register_count_checked_at_construction_witness :
    SimtPolicy ⟨8, 16, 1⟩ ⟨5⟩ Layout.RowMajor ⟨⟨4, 4⟩, ⟨1, 2, 1⟩⟩
        = Except.ok ⟨2, 4, 8, 2, 4, 2⟩ ∧
      (FragmentIteratorSimt.construct ⟨2, 4, 8, 2, 4, 2⟩ [1, 2, 3, 4, 5]
          : Except String (FragmentIteratorSimt Nat))
        = Except.error "no matching constructor" ∧
      FragmentIteratorSimt.construct ⟨2, 4, 8, 2, 4, 2⟩ [10, 11, 12, 13, 20, 21, 22, 23]
        = Except.ok (⟨[10, 11, 12, 13, 20, 21, 22, 23], 0⟩ : FragmentIteratorSimt Nat) ∧
      ((∀ op' : Operator, SimtPolicy ⟨8, 16, 1⟩ op' Layout.RowMajor ⟨⟨4, 4⟩, ⟨1, 2, 1⟩⟩
          = Except.ok ⟨2, 4, 8, 2, 4, 2⟩) ∧
        (⟨2, 4, 8, 2, 4, 2⟩ : Policy).kAccumulatorElementCount
          = (⟨2, 4, 8, 2, 4, 2⟩ : Policy).kIterations *
            (⟨2, 4, 8, 2, 4, 2⟩ : Policy).kElementsPerIteration ∧
        ((⟨5⟩ : Operator).kAccumulatorRegisters
            = (⟨2, 4, 8, 2, 4, 2⟩ : Policy).kIterations *
              (⟨2, 4, 8, 2, 4, 2⟩ : Policy).kElementsPerIteration →
          FragmentIteratorSimt.construct ⟨2, 4, 8, 2, 4, 2⟩ [1, 2, 3, 4, 5]
            = Except.ok (FragmentIteratorSimt.ctor [1, 2, 3, 4, 5])) ∧
        ((⟨5⟩ : Operator).kAccumulatorRegisters
            ≠ (⟨2, 4, 8, 2, 4, 2⟩ : Policy).kIterations *
              (⟨2, 4, 8, 2, 4, 2⟩ : Policy).kElementsPerIteration →
          ∃ msg, (FragmentIteratorSimt.construct ⟨2, 4, 8, 2, 4, 2⟩ [1, 2, 3, 4, 5]
              : Except String (FragmentIteratorSimt Nat)) = Except.error msg)) :=
  ⟨rfl, rfl, rfl, register_count_checked_at_construction ⟨8, 16, 1⟩ ⟨5⟩ Layout.RowMajor
    ⟨⟨4, 4⟩, ⟨1, 2, 1⟩⟩ ⟨2, 4, 8, 2, 4, 2⟩ [1, 2, 3, 4, 5] rfl rfl⟩

/-- C7, as stated, fails: on the warp shape 8 x 12 with lanes 4 x 4 and lane width 2, at
position 1 and with no step in between, `load` into the buffer `[7, 8, 9]` yields
`[12, 20, 9]` and `load` into the buffer `[0, 0, 0]` yields `[12, 20, 0]`. -/
theorem load_twice_into_two_buffers_differs :
    SimtPolicy ⟨8, 12, 1⟩ ⟨6⟩ Layout.RowMajor ⟨⟨4, 4⟩, ⟨1, 2, 1⟩⟩
        = Except.ok ⟨2, 3, 6, 2, 4, 1⟩ ∧
      FragmentIteratorSimt.load ⟨2, 3, 6, 2, 4, 1⟩
          ⟨[10, 11, 12, 20, 21, 22], 1⟩ [7, 8, 9] 0
        = some (⟨[10, 11, 12, 20, 21, 22], 1⟩, [12, 20, 9]) ∧
      FragmentIteratorSimt.load ⟨2, 3, 6, 2, 4, 1⟩
          ⟨[10, 11, 12, 20, 21, 22], 1⟩ [0, 0, 0] 0
        = some (⟨[10, 11, 12, 20, 21, 22], 1⟩, [12, 20, 0]) ∧
      ([12, 20, 9] : List Nat) ≠ [12, 20, 0] :=
  ⟨rfl, rfl, rfl, by decide⟩

/-- C7, amended: at a position `0 <= p < iterations` two calls of `load` with no step in
between, into the fragment buffers `frag` and `other`, both return and leave the iterator
where it was; a further call into the buffer the first call filled returns that very
fragment; the two fragments agree on their first
`accesses_per_iteration * elements_per_access` elements, behind which each holds what its own
buffer held before; and the two fragments are identical when `elements_per_access` divides
`elements_per_iteration`. -/
theorem load_twice_fragments_agree {α : Type} (ws : GemmShape) (op : Operator) (l : Layout)
    (mp : MmaSimtPolicy) (P : Policy) (tile frag other : List α) (p k k' : Int)
    (hP : SimtPolicy ws op l mp = Except.ok P)
    (hinst : FragmentIteratorSimt.Instantiable P)
    (htile : IsAccumulatorTile P tile) (hfrag : IsFragment P frag)
    (hother : IsFragment P other)
    (hp0 : 0 ≤ p) (hp1 : p < P.kIterations) :
    ∃ first second,
      FragmentIteratorSimt.load P ⟨tile, p⟩ frag k = some (⟨tile, p⟩, first) ∧
      FragmentIteratorSimt.load P ⟨tile, p⟩ other k' = some (⟨tile, p⟩, second) ∧
      FragmentIteratorSimt.load P ⟨tile, p⟩ first k' = some (⟨tile, p⟩, first) ∧
      (∀ j : Nat, (j : Int) < P.kAccessesPerIteration * P.kElementsPerAccess →
        first[j]? = second[j]?) ∧
      (∀ j : Nat, P.kAccessesPerIteration * P.kElementsPerAccess ≤ (j : Int) →
        first[j]? = frag[j]? ∧ second[j]? = other[j]?) ∧
      (P.kElementsPerIteration.tmod P.kElementsPerAccess = 0 → first = second) := by
  obtain ⟨EPI, E, A, I, pn, hEPI, hE, hA, hI, hpn, hEpos, hAdef, hAE, hpI, hlen⟩ :=
    in_range_nat_view ws op l mp P tile p hP hinst htile hp0 hp1
  have hfl : frag.length = EPI := by
    unfold IsFragment at hfrag; rw [hEPI] at hfrag; exact_mod_cast hfrag
  have hol : other.length = EPI := by
    unfold IsFragment at hother; rw [hEPI] at hother; exact_mod_cast hother
  have hcast : P.kAccessesPerIteration * P.kElementsPerAccess = ((A * E : Nat) : Int) := by
    rw [hA, hE]; push_cast; rfl
  obtain ⟨first, hrun, hlen1, hget1⟩ :=
    load_spec_nat P ⟨tile, p⟩ frag k EPI E A I pn hE hA hAE hfl hlen hpn hpI
  obtain ⟨second, hrun2, hlen2, hget2⟩ :=
    load_spec_nat P ⟨tile, p⟩ other k' EPI E A I pn hE hA hAE hol hlen hpn hpI
  refine ⟨first, second, hrun, hrun2, ?_, ?_, ?_, ?_⟩
  · obtain ⟨again, hrun3, hlen3, hget3⟩ :=
      load_spec_nat P ⟨tile, p⟩ first k' EPI E A I pn hE hA hAE (hlen1.trans hfl) hlen hpn hpI
    have : again = first := by
      apply List.ext_getElem?
      intro j
      rw [hget3 j, hget1 j]
      split <;> rfl
    rw [hrun3, this]
  · intro j hj
    rw [hcast] at hj
    have hj' : j < A * E := by exact_mod_cast hj
    rw [hget1 j, hget2 j, if_pos hj', if_pos hj']
  · intro j hj
    rw [hcast] at hj
    have hj' : ¬ j < A * E := by
      have : A * E ≤ j := by exact_mod_cast hj
      omega
    rw [hget1 j, hget2 j, if_neg hj', if_neg hj']
    exact ⟨rfl, rfl⟩
  · intro hdiv
    have hdvd : E ∣ EPI := by
      rw [hEPI, hE] at hdiv
      have := Int.dvd_of_tmod_eq_zero hdiv
      exact_mod_cast this
    have hfull : A * E = EPI := by rw [hAdef]; exact Nat.div_mul_cancel hdvd
    apply List.ext_getElem?
    intro j
    rw [hget1 j, hget2 j, hfull]
    split
    · rfl
    · rw [List.getElem?_eq_none (by omega), List.getElem?_eq_none (by omega)]

/-- C7, amended, at the warp shape 8 x 16 with lanes 4 x 4 and lane width 2, position 1, where
`elements_per_access` divides `elements_per_iteration`: the buffers `[7, 8, 9, 6]` and
`[0, 0, 0, 0]` both end as `[20, 21, 22, 23]`. -/
theorem load_twice_fragments_agree_witness :
    SimtPolicy ⟨8, 16, 1⟩ ⟨8⟩ Layout.RowMajor ⟨⟨4, 4⟩, ⟨1, 2, 1⟩⟩
        = Except.ok ⟨2, 4, 8, 2, 4, 2⟩ ∧
      (⟨2, 4, 8, 2, 4, 2⟩ : Policy).kElementsPerIteration.tmod
        (⟨2, 4, 8, 2, 4, 2⟩ : Policy).kElementsPerAccess = 0 ∧
      FragmentIteratorSimt.load ⟨2, 4, 8, 2, 4, 2⟩
          ⟨[10, 11, 12, 13, 20, 21, 22, 23], 1⟩ [7, 8, 9, 6] 0
        = some (⟨[10, 11, 12, 13, 20, 21, 22, 23], 1⟩, [20, 21, 22, 23]) ∧
      FragmentIteratorSimt.load ⟨2, 4, 8, 2, 4, 2⟩
          ⟨[10, 11, 12, 13, 20, 21, 22, 23], 1⟩ [0, 0, 0, 0] 0
        = some (⟨[10, 11, 12, 13, 20, 21, 22, 23], 1⟩, [20, 21, 22, 23]) ∧
      ∃ first second,
        FragmentIteratorSimt.load ⟨2, 4, 8, 2, 4, 2⟩
            ⟨[10, 11, 12, 13, 20, 21, 22, 23], 1⟩ [7, 8, 9, 6] 0
          = some (⟨[10, 11, 12, 13, 20, 21, 22, 23], 1⟩, first) ∧
        FragmentIteratorSimt.load ⟨2, 4, 8, 2, 4, 2⟩
            ⟨[10, 11, 12, 13, 20, 21, 22, 23], 1⟩ [0, 0, 0, 0] 0
          = some (⟨[10, 11, 12, 13, 20, 21, 22, 23], 1⟩, second) ∧
        FragmentIteratorSimt.load ⟨2, 4, 8, 2, 4, 2⟩
            ⟨[10, 11, 12, 13, 20, 21, 22, 23], 1⟩ first 0
          = some (⟨[10, 11, 12, 13, 20, 21, 22, 23], 1⟩, first) ∧
        (∀ j : Nat, (j : Int) < (⟨2, 4, 8, 2, 4, 2⟩ : Policy).kAccessesPerIteration *
            (⟨2, 4, 8, 2, 4, 2⟩ : Policy).kElementsPerAccess →
          first[j]? = second[j]?) ∧
        (∀ j : Nat, (⟨2, 4, 8, 2, 4, 2⟩ : Policy).kAccessesPerIteration *
            (⟨2, 4, 8, 2, 4, 2⟩ : Policy).kElementsPerAccess ≤ (j : Int) →
          first[j]? = [7, 8, 9, 6][j]? ∧ second[j]? = [0, 0, 0, 0][j]?) ∧
        ((⟨2, 4, 8, 2, 4, 2⟩ : Policy).kElementsPerIteration.tmod
            (⟨2, 4, 8, 2, 4, 2⟩ : Policy).kElementsPerAccess = 0 → first = second) :=
  ⟨rfl, rfl, rfl, rfl, load_twice_fragments_agree ⟨8, 16, 1⟩ ⟨8⟩ Layout.RowMajor
    ⟨⟨4, 4⟩, ⟨1, 2, 1⟩⟩ ⟨2, 4, 8, 2, 4, 2⟩ [10, 11, 12, 13, 20, 21, 22, 23] [7, 8, 9, 6]
    [0, 0, 0, 0] 1 0 0 rfl ⟨by decide, by decide, by decide⟩ rfl rfl rfl
    (by decide) (by decide)⟩

/-- C8: for an accepted shape, divisible or not, and a position `0 <= p < iterations`, every
element index `(p * accesses_per_iteration + n) * elements_per_access + e` with
`n < accesses_per_iteration` and `e < elements_per_access` lies inside the accumulator tile,
and `load` on a tile and a fragment of the policy returns. -/
theorem load_reads_inside_tile {α : Type} (ws : GemmShape) (op : Operator) (l : Layout)
    (mp : MmaSimtPolicy) (P : Policy) (tile frag : List α) (p k : Int)
    (hP : SimtPolicy ws op l mp = Except.ok P)
    (hinst : FragmentIteratorSimt.Instantiable P)
    (htile : IsAccumulatorTile P tile) (hfrag : IsFragment P frag)
    (hp0 : 0 ≤ p) (hp1 : p < P.kIterations) :
    (∀ n e : Int, 0 ≤ n → n < P.kAccessesPerIteration → 0 ≤ e → e < P.kElementsPerAccess →
        0 ≤ (p * P.kAccessesPerIteration + n) * P.kElementsPerAccess + e ∧
        (p * P.kAccessesPerIteration + n) * P.kElementsPerAccess + e
          < P.kAccumulatorElementCount ∧
        (p * P.kAccessesPerIteration + n) * P.kElementsPerAccess + e < (tile.length : Int)) ∧
      (FragmentIteratorSimt.load P ⟨tile, p⟩ frag k).isSome = true := by
  obtain ⟨EPI, E, A, I, pn, hEPI, hE, hA, hI, hpn, hEpos, hAdef, hAE, hpI, hlen⟩ :=
    in_range_nat_view ws op l mp P tile p hP hinst htile hp0 hp1
  have hfl : frag.length = EPI := by
    unfold IsFragment at hfrag; rw [hEPI] at hfrag; exact_mod_cast hfrag
  constructor
  · intro n e hn0 hn1 he0 he1
    have hcount : P.kAccumulatorElementCount = (tile.length : Int) := htile.symm
    rw [hcount, hlen, hA, hE, hpn]
    rw [hA] at hn1
    rw [hE] at he1
    have hAE' : (A : Int) * (E : Int) ≤ (EPI : Int) := by exact_mod_cast hAE
    have hpI' : (pn : Int) + 1 ≤ (I : Int) := by exact_mod_cast hpI
    have hpn0 : (0 : Int) ≤ (pn : Int) := by positivity
    have hA0 : (0 : Int) ≤ (A : Int) := by positivity
    have hE0 : (0 : Int) ≤ (E : Int) := by positivity
    have hEPI0 : (0 : Int) ≤ (EPI : Int) := by positivity
    have hlow : (0 : Int) ≤ ((pn : Int) * (A : Int) + n) * (E : Int) + e := by positivity
    have hup : ((pn : Int) * (A : Int) + n) * (E : Int) + e < ((EPI * I : Nat) : Int) := by
      push_cast
      have h1 : ((pn : Int) * (A : Int) + n) * (E : Int) + e
          < ((pn : Int) + 1) * ((A : Int) * (E : Int)) := by nlinarith
      have h2 : ((pn : Int) + 1) * ((A : Int) * (E : Int)) ≤ (I : Int) * (EPI : Int) :=
        mul_le_mul hpI' hAE' (by positivity) (by positivity)
      linarith
    exact ⟨hlow, hup, hup⟩
  · obtain ⟨frag', hrun, -, -⟩ :=
      load_spec_nat P ⟨tile, p⟩ frag k EPI E A I pn hE hA hAE hfl hlen hpn hpI
    rw [hrun]; rfl

/-- C8 at the warp shape 8 x 12 with lanes 4 x 4 and lane width 2, position 1, a shape
in which `elements_per_access` does not divide `elements_per_iteration`. -/
theorem load_reads_inside_tile_witness :
    SimtPolicy ⟨8, 12, 1⟩ ⟨6⟩ Layout.RowMajor ⟨⟨4, 4⟩, ⟨1, 2, 1⟩⟩
        = Except.ok ⟨2, 3, 6, 2, 4, 1⟩ ∧
      ((∀ n e : Int, 0 ≤ n → n < (⟨2, 3, 6, 2, 4, 1⟩ : Policy).kAccessesPerIteration →
          0 ≤ e → e < (⟨2, 3, 6, 2, 4, 1⟩ : Policy).kElementsPerAccess →
          0 ≤ (1 * (⟨2, 3, 6, 2, 4, 1⟩ : Policy).kAccessesPerIteration + n) *
              (⟨2, 3, 6, 2, 4, 1⟩ : Policy).kElementsPerAccess + e ∧
          (1 * (⟨2, 3, 6, 2, 4, 1⟩ : Policy).kAccessesPerIteration + n) *
              (⟨2, 3, 6, 2, 4, 1⟩ : Policy).kElementsPerAccess + e
            < (⟨2, 3, 6, 2, 4, 1⟩ : Policy).kAccumulatorElementCount ∧
          (1 * (⟨2, 3, 6, 2, 4, 1⟩ : Policy).kAccessesPerIteration + n) *
              (⟨2, 3, 6, 2, 4, 1⟩ : Policy).kElementsPerAccess + e
            < (([10, 11, 12, 20, 21, 22] : List Nat).length : Int)) ∧
        (FragmentIteratorSimt.load ⟨2, 3, 6, 2, 4, 1⟩
          ⟨[10, 11, 12, 20, 21, 22], 1⟩ [7, 8, 9] 0).isSome = true) :=
  ⟨rfl, load_reads_inside_tile ⟨8, 12, 1⟩ ⟨6⟩ Layout.RowMajor ⟨⟨4, 4⟩, ⟨1, 2, 1⟩⟩
    ⟨2, 3, 6, 2, 4, 1⟩ [10, 11, 12, 20, 21, 22] [7, 8, 9] 1 0 rfl
    ⟨by decide, by decide, by decide⟩ rfl rfl (by decide) (by decide)⟩

/-- C9: a freshly constructed iterator is at position 0; after any sequence of calls of
`operator++` and `operator--`, `n` increments and `m` decrements in any order, the position is
`n - m`, whatever `n` and `m` are (no bound, clamp or wrap at the tile ends), and the iterator
still refers to the same tile; an increment followed by a decrement, or the reverse, restores
the iterator. -/
theorem position_after_steps {α : Type} (tile : List α) (moves : List Move) :
    (FragmentIteratorSimt.ctor tile).index_ = 0 ∧
      ((FragmentIteratorSimt.ctor tile).steps moves).index_ =
        (moves.count Move.increment : Int) - (moves.count Move.decrement : Int) ∧
      ((FragmentIteratorSimt.ctor tile).steps moves).accumulators_ = tile ∧
      ∀ self : FragmentIteratorSimt α,
        self.operator_increment.operator_decrement = self ∧
        self.operator_decrement.operator_increment = self := by
  obtain ⟨h1, h2⟩ := steps_from moves (FragmentIteratorSimt.ctor tile)
  refine ⟨rfl, ?_, h2, ?_⟩
  · rw [h1]
    simp [FragmentIteratorSimt.ctor]
  · intro self
    cases self with
    | mk acc idx =>
      simp [FragmentIteratorSimt.operator_increment, FragmentIteratorSimt.operator_decrement]

/-- C10: whenever `load` returns, the iterator after the call is the iterator before the call:
the accumulator tile it refers to and its position are unchanged, for every policy, tile,
position, fragment buffer and offset; only the fragment component of the state can differ. -/
theorem load_leaves_iterator_unchanged {α : Type} (P : Policy)
    (self : FragmentIteratorSimt α) (frag : List α) (k : Int)
    (r : FragmentIteratorSimt α × List α)
    (h : FragmentIteratorSimt.load P self frag k = some r) :
    r.1 = self ∧ r.1.accumulators_ = self.accumulators_ ∧ r.1.index_ = self.index_ := by
  have h1 : r.1 = self :=
    loadLoop_fst P P.kAccessesPerIteration.toNat 0 (self, frag) r h
  rw [h1]
  exact ⟨rfl, rfl, rfl⟩

/-- C10 at the warp shape 8 x 16 with lanes 4 x 4 and lane width 2, position 1: the call
returns, the fragment buffer changes, tile and position do not. -/
theorem load_leaves_iterator_unchanged_witness :
    FragmentIteratorSimt.load ⟨2, 4, 8, 2, 4, 2⟩
        ⟨[10, 11, 12, 13, 20, 21, 22, 23], 1⟩ [0, 0, 0, 0] 0
        = some (⟨[10, 11, 12, 13, 20, 21, 22, 23], 1⟩, [20, 21, 22, 23]) ∧
      ((⟨[10, 11, 12, 13, 20, 21, 22, 23], 1⟩ : FragmentIteratorSimt Nat)
          = ⟨[10, 11, 12, 13, 20, 21, 22, 23], 1⟩ ∧
        [10, 11, 12, 13, 20, 21, 22, 23] = [10, 11, 12, 13, 20, 21, 22, 23] ∧
        (1 : Int) = 1) :=
  ⟨rfl, load_leaves_iterator_unchanged ⟨2, 4, 8, 2, 4, 2⟩
    ⟨[10, 11, 12, 13, 20, 21, 22, 23], 1⟩ [0, 0, 0, 0] 0
    (⟨[10, 11, 12, 13, 20, 21, 22, 23], 1⟩, [20, 21, 22, 23]) rfl⟩

/-! ## Traversal of the whole tile and loads outside it -/

/-- In a shape whose accesses fill the fragment, `load` at a position `p` inside the tile
leaves the `p`-th chunk of the tile in the fragment. -/
theorem load_chunk_nat {α : Type} (P : Policy) (self : FragmentIteratorSimt α) (frag : List α)
    (off : Int) (EPI E A I p : Nat)
    (hE : P.kElementsPerAccess = (E : Int)) (hA : P.kAccessesPerIteration = (A : Int))
    (hfull : A * E = EPI) (hfrag : frag.length = EPI)
    (htile : self.accumulators_.length = EPI * I) (hidx : self.index_ = (p : Int))
    (hp : p < I) :
    FragmentIteratorSimt.load P self frag off =
      some (self, (self.accumulators_.drop (p * EPI)).take EPI) := by
  obtain ⟨frag', hrun, hlen, hget⟩ :=
    load_spec_nat P self frag off EPI E A I p hE hA (Nat.le_of_eq hfull) hfrag htile hidx hp
  have : frag' = (self.accumulators_.drop (p * EPI)).take EPI := by
    apply List.ext_getElem?
    intro j
    rw [hget j, getElem?_read, hfull, Nat.mul_assoc, hfull]
    split
    · rfl
    · exact List.getElem?_eq_none (by omega)
  rw [hrun, this]

/-- The traversal from position `p` over the `rounds` remaining positions of the tile yields
`rounds` fragments whose concatenation is the tile from element `p * EPI` on. -/
theorem walk_spec_nat {α : Type} (P : Policy) (tile : List α) (EPI E A I : Nat)
    (hE : P.kElementsPerAccess = (E : Int)) (hA : P.kAccessesPerIteration = (A : Int))
    (hfull : A * E = EPI) (htile : tile.length = EPI * I) :
    ∀ (rounds p : Nat) (frag : List α), p + rounds = I → frag.length = EPI →
      ∃ frags, FragmentIteratorSimt.walk P rounds ⟨tile, (p : Int)⟩ frag = some frags ∧
        frags.length = rounds ∧ (∀ f ∈ frags, f.length = EPI) ∧
        frags.flatten = tile.drop (p * EPI) := by
  intro rounds
  induction rounds with
  | zero =>
    intro p frag hp _
    refine ⟨[], rfl, rfl, ?_, ?_⟩
    · intro f hf; cases hf
    · have : tile.length ≤ p * EPI := by
        rw [htile, Nat.mul_comm]; simp only [Nat.add_zero] at hp; rw [hp]
      rw [List.drop_eq_nil_of_le this]; rfl
  | succ c ih =>
    intro p frag hp hfl
    have hpI : p < I := by omega
    have hload := load_chunk_nat P ⟨tile, (p : Int)⟩ frag 0 EPI E A I p hE hA hfull hfl
      htile rfl hpI
    have hin : p * EPI + EPI ≤ tile.length := by
      rw [htile]
      calc p * EPI + EPI = EPI * (p + 1) := by ring
        _ ≤ EPI * I := Nat.mul_le_mul_left _ hpI
    have hclen : ((tile.drop (p * EPI)).take EPI).length = EPI := by
      rw [List.length_take, List.length_drop]; omega
    obtain ⟨rest, hrest, hrlen, hrall, hrflat⟩ :=
      ih (p + 1) ((tile.drop (p * EPI)).take EPI) (by omega) hclen
    refine ⟨(tile.drop (p * EPI)).take EPI :: rest, ?_, ?_, ?_, ?_⟩
    · simp only [FragmentIteratorSimt.walk]
      simp only at hload
      rw [hload]
      simp only [FragmentIteratorSimt.operator_increment]
      have hcast : ((p : Int) + 1) = ((p + 1 : Nat) : Int) := by push_cast; rfl
      rw [hcast, hrest]
    · simp [hrlen]
    · intro f hf
      rcases List.mem_cons.mp hf with h | h
      · rw [h]; exact hclen
      · exact hrall f h
    · rw [List.flatten_cons, hrflat]
      have : tile.drop ((p + 1) * EPI) = (tile.drop (p * EPI)).drop EPI := by
        rw [List.drop_drop, Nat.add_mul, Nat.one_mul]
      rw [this, List.take_append_drop]

/-- When the loop of `load` runs at least once and its first access leaves the tile, the call
is undefined. -/
theorem load_eq_none_of_first_access_outside {α : Type} (P : Policy)
    (self : FragmentIteratorSimt α) (frag : List α) (off : Int)
    (hA : 0 < P.kAccessesPerIteration)
    (hout : ¬ (0 ≤ self.index_ * P.kAccessesPerIteration * P.kElementsPerAccess ∧
      self.index_ * P.kAccessesPerIteration * P.kElementsPerAccess + P.kElementsPerAccess
        ≤ (self.accumulators_.length : Int))) :
    FragmentIteratorSimt.load P self frag off = none := by
  obtain ⟨c, hc⟩ : ∃ c, P.kAccessesPerIteration.toNat = c + 1 := by
    have : 0 < P.kAccessesPerIteration.toNat := by omega
    exact ⟨P.kAccessesPerIteration.toNat - 1, by omega⟩
  have hread : readAccess self.accumulators_ P.kElementsPerAccess
      (self.index_ * P.kAccessesPerIteration + 0) = none := by
    rw [Int.add_zero]
    simp only [readAccess, if_neg hout]
  simp only [FragmentIteratorSimt.load, hc, FragmentIteratorSimt.loadLoop, hread]

/-- After `n` calls of `operator++` a fresh iterator is at position `n` of the same tile. -/
theorem steps_increments {α : Type} (tile : List α) (n : Nat) :
    (FragmentIteratorSimt.ctor tile).steps (List.replicate n Move.increment)
      = ⟨tile, (n : Int)⟩ := by
  obtain ⟨h1, h2⟩ := steps_from (List.replicate n Move.increment) (FragmentIteratorSimt.ctor tile)
  cases hs : (FragmentIteratorSimt.ctor tile).steps (List.replicate n Move.increment) with
  | mk acc idx =>
    rw [hs] at h1 h2
    simp only [FragmentIteratorSimt.ctor, List.count_replicate_self, List.count_replicate,
      Int.zero_add] at h1 h2
    simp only [FragmentIteratorSimt.mk.injEq]
    refine ⟨h2, ?_⟩
    rw [h1]
    simp

/-- C12: in an accepted shape whose `elements_per_access` divides `elements_per_iteration`,
the traversal load, increment, load, ... over the positions `0, ..., iterations - 1` of a
fresh iterator returns `iterations` fragments, each of `elements_per_iteration` elements,
whose concatenation is the accumulator tile, element for element. -/
theorem walk_reproduces_tile {α : Type} (ws : GemmShape) (op : Operator) (l : Layout)
    (mp : MmaSimtPolicy) (P : Policy) (tile frag : List α)
    (hP : SimtPolicy ws op l mp = Except.ok P)
    (hinst : FragmentIteratorSimt.Instantiable P)
    (htile : IsAccumulatorTile P tile) (hfrag : IsFragment P frag)
    (hdiv : P.kElementsPerIteration.tmod P.kElementsPerAccess = 0) :
    ∃ frags, FragmentIteratorSimt.walk P P.kIterations.toNat
        (FragmentIteratorSimt.ctor tile) frag = some frags ∧
      frags.length = P.kIterations.toNat ∧ (∀ f ∈ frags, IsFragment P f) ∧
      frags.flatten = tile := by
  obtain ⟨EPI, E, A, hEPI, hE, hA, hEpos, hAdef, hcount⟩ :=
    policy_nat_view ws op l mp P hP hinst
  have hfl : frag.length = EPI := by
    unfold IsFragment at hfrag; rw [hEPI] at hfrag; exact_mod_cast hfrag
  have hdvd : E ∣ EPI := by
    rw [hEPI, hE] at hdiv
    have := Int.dvd_of_tmod_eq_zero hdiv
    exact_mod_cast this
  have hfull : A * E = EPI := by rw [hAdef]; exact Nat.div_mul_cancel hdvd
  have hlen : tile.length = EPI * P.kIterations.toNat := by
    unfold IsAccumulatorTile at htile
    rw [hcount] at htile
    by_cases hi : 0 ≤ P.kIterations
    · obtain ⟨I, hI⟩ := Int.eq_ofNat_of_zero_le hi
      rw [hI] at htile ⊢
      rw [Int.toNat_natCast]
      exact_mod_cast htile
    · have hneg : P.kIterations < 0 := by omega
      have h0 : P.kIterations.toNat = 0 := by omega
      rw [h0, Nat.mul_zero]
      have hle : (EPI : Int) * P.kIterations ≤ 0 :=
        Int.mul_nonpos_of_nonneg_of_nonpos (by positivity) (Int.le_of_lt hneg)
      omega
  obtain ⟨frags, hrun, hn, hall, hflat⟩ :=
    walk_spec_nat P tile EPI E A P.kIterations.toNat hE hA hfull hlen
      P.kIterations.toNat 0 frag (by omega) hfl
  refine ⟨frags, hrun, hn, ?_, ?_⟩
  · intro f hf
    unfold IsFragment
    rw [hall f hf, hEPI]
  · rw [hflat]; simp

/-- C12 at the warp shape 8 x 16 with lanes 4 x 4 and lane width 2: two fragments of four
elements each. -/
theorem walk_reproduces_tile_witness :
    SimtPolicy ⟨8, 16, 1⟩ ⟨8⟩ Layout.RowMajor ⟨⟨4, 4⟩, ⟨1, 2, 1⟩⟩
        = Except.ok ⟨2, 4, 8, 2, 4, 2⟩ ∧
      FragmentIteratorSimt.walk ⟨2, 4, 8, 2, 4, 2⟩ 2
          (FragmentIteratorSimt.ctor [10, 11, 12, 13, 20, 21, 22, 23]) [0, 0, 0, 0]
        = some [[10, 11, 12, 13], [20, 21, 22, 23]] ∧
      ∃ frags, FragmentIteratorSimt.walk ⟨2, 4, 8, 2, 4, 2⟩
          (⟨2, 4, 8, 2, 4, 2⟩ : Policy).kIterations.toNat
          (FragmentIteratorSimt.ctor [10, 11, 12, 13, 20, 21, 22, 23]) [0, 0, 0, 0]
            = some frags ∧
        frags.length = (⟨2, 4, 8, 2, 4, 2⟩ : Policy).kIterations.toNat ∧
        (∀ f ∈ frags, IsFragment ⟨2, 4, 8, 2, 4, 2⟩ f) ∧
        frags.flatten = [10, 11, 12, 13, 20, 21, 22, 23] :=
  ⟨rfl, rfl, walk_reproduces_tile ⟨8, 16, 1⟩ ⟨8⟩ Layout.RowMajor ⟨⟨4, 4⟩, ⟨1, 2, 1⟩⟩
    ⟨2, 4, 8, 2, 4, 2⟩ [10, 11, 12, 13, 20, 21, 22, 23] [0, 0, 0, 0] rfl
    ⟨by decide, by decide, by decide⟩ rfl rfl rfl⟩

/-- C13: in an accepted shape with at least one access per iteration whose
`elements_per_access` divides `elements_per_iteration`, at every position `p >= iterations`
and at every position `p < 0` each element index of `load` lies outside the accumulator tile
and the call is undefined; the position after exactly `iterations` increments of a fresh
iterator is `iterations`, where `load` is undefined, and the position after `iterations - 1`
increments is `iterations - 1`, where `load` returns. -/
theorem load_outside_tile_past_the_ends {α : Type} (ws : GemmShape) (op : Operator)
    (l : Layout) (mp : MmaSimtPolicy) (P : Policy) (tile frag : List α) (k : Int)
    (hP : SimtPolicy ws op l mp = Except.ok P)
    (hinst : FragmentIteratorSimt.Instantiable P)
    (htile : IsAccumulatorTile P tile) (hfrag : IsFragment P frag)
    (hdiv : P.kElementsPerIteration.tmod P.kElementsPerAccess = 0)
    (hacc : 1 ≤ P.kAccessesPerIteration) :
    (∀ p : Int, (P.kIterations ≤ p ∨ p < 0) →
        (∀ n e : Int, 0 ≤ n → n < P.kAccessesPerIteration → 0 ≤ e →
          e < P.kElementsPerAccess →
          (p * P.kAccessesPerIteration + n) * P.kElementsPerAccess + e < 0 ∨
          P.kAccumulatorElementCount
            ≤ (p * P.kAccessesPerIteration + n) * P.kElementsPerAccess + e) ∧
        FragmentIteratorSimt.load P ⟨tile, p⟩ frag k = none) ∧
      ((FragmentIteratorSimt.ctor tile).steps
          (List.replicate P.kIterations.toNat Move.increment)).index_ = P.kIterations ∧
      FragmentIteratorSimt.load P ((FragmentIteratorSimt.ctor tile).steps
          (List.replicate P.kIterations.toNat Move.increment)) frag k = none ∧
      (0 < P.kIterations →
        ((FragmentIteratorSimt.ctor tile).steps
          (List.replicate (P.kIterations.toNat - 1) Move.increment)).index_
            = P.kIterations - 1 ∧
        (FragmentIteratorSimt.load P ((FragmentIteratorSimt.ctor tile).steps
          (List.replicate (P.kIterations.toNat - 1) Move.increment)) frag k).isSome = true) := by
  obtain ⟨EPI, E, A, hEPI, hE, hA, hEpos, hAdef, hcount⟩ :=
    policy_nat_view ws op l mp P hP hinst
  have hfl : frag.length = EPI := by
    unfold IsFragment at hfrag; rw [hEPI] at hfrag; exact_mod_cast hfrag
  have hdvd : E ∣ EPI := by
    rw [hEPI, hE] at hdiv
    have := Int.dvd_of_tmod_eq_zero hdiv
    exact_mod_cast this
  have hfull : A * E = EPI := by rw [hAdef]; exact Nat.div_mul_cancel hdvd
  have hfullZ : (A : Int) * (E : Int) = (EPI : Int) := by exact_mod_cast hfull
  have hA1 : (1 : Int) ≤ (A : Int) := by rw [← hA]; exact hacc
  have hE1 : (1 : Int) ≤ (E : Int) := by exact_mod_cast hEpos
  have hEPI1 : (1 : Int) ≤ (EPI : Int) := by rw [← hfullZ]; nlinarith
  have hlenZ : (tile.length : Int) = (EPI : Int) * P.kIterations := by
    unfold IsAccumulatorTile at htile; rw [htile, hcount]
  have hI0 : 0 ≤ P.kIterations := by
    have h0 : (0 : Int) ≤ (EPI : Int) * P.kIterations := by rw [← hlenZ]; positivity
    by_contra hneg
    have : P.kIterations ≤ -1 := by omega
    nlinarith
  obtain ⟨I, hI⟩ := Int.eq_ofNat_of_zero_le hI0
  have hlen : tile.length = EPI * I := by rw [hI] at hlenZ; exact_mod_cast hlenZ
  have hpart : ∀ p : Int, (P.kIterations ≤ p ∨ p < 0) →
      (∀ n e : Int, 0 ≤ n → n < P.kAccessesPerIteration → 0 ≤ e →
        e < P.kElementsPerAccess →
        (p * P.kAccessesPerIteration + n) * P.kElementsPerAccess + e < 0 ∨
        P.kAccumulatorElementCount
          ≤ (p * P.kAccessesPerIteration + n) * P.kElementsPerAccess + e) ∧
      FragmentIteratorSimt.load P ⟨tile, p⟩ frag k = none := by
    intro p hp
    constructor
    · intro n e hn0 hn1 he0 he1
      rw [hcount, hA, hE]
      rw [hA] at hn1
      rw [hE] at he1
      have hexp : ((p * (A : Int) + n) * (E : Int) + e)
          = p * (EPI : Int) + n * (E : Int) + e := by rw [← hfullZ]; ring
      rw [hexp]
      rcases hp with hp | hp
      · right
        have h1 : P.kIterations * (EPI : Int) ≤ p * (EPI : Int) :=
          mul_le_mul_of_nonneg_right hp (by positivity)
        have h2 : 0 ≤ n * (E : Int) := mul_nonneg hn0 (by positivity)
        linarith
      · left
        have h1 : (p + 1) * (EPI : Int) ≤ 0 :=
          mul_nonpos_of_nonpos_of_nonneg (by omega) (by positivity)
        have h2 : (n + 1) * (E : Int) ≤ (A : Int) * (E : Int) :=
          mul_le_mul_of_nonneg_right (by omega) (by positivity)
        rw [hfullZ] at h2
        linarith
    · apply load_eq_none_of_first_access_outside
      · omega
      · simp only [hA, hE, hlenZ]
        have hexp : p * (A : Int) * (E : Int) = p * (EPI : Int) := by rw [← hfullZ]; ring
        rw [hexp]
        rcases hp with hp | hp
        · have h1 : P.kIterations * (EPI : Int) ≤ p * (EPI : Int) :=
            mul_le_mul_of_nonneg_right hp (by positivity)
          intro hcon
          linarith [hcon.2]
        · have h1 : (p + 1) * (EPI : Int) ≤ 0 :=
            mul_nonpos_of_nonpos_of_nonneg (by omega) (by positivity)
          intro hcon
          linarith [hcon.1]
  have hIn : P.kIterations.toNat = I := by rw [hI]; exact Int.toNat_natCast _
  refine ⟨hpart, ?_, ?_, ?_⟩
  · rw [hIn, steps_increments, hI]
  · rw [hIn, steps_increments, ← hI]
    exact (hpart P.kIterations (Or.inl (Int.le_refl _))).2
  · intro hpos
    have hIpos : 0 < I := by rw [hI] at hpos; exact_mod_cast hpos
    have hcast : ((I - 1 : Nat) : Int) = P.kIterations - 1 := by
      rw [hI]; omega
    rw [hIn, steps_increments]
    refine ⟨hcast, ?_⟩
    obtain ⟨frag', hrun, -, -⟩ :=
      load_spec_nat P ⟨tile, ((I - 1 : Nat) : Int)⟩ frag k EPI E A I (I - 1) hE hA
        (Nat.le_of_eq hfull) hfl hlen rfl (by omega)
    rw [hrun]; rfl

/-- C13 at the warp shape 8 x 16 with lanes 4 x 4 and lane width 2 (two positions): `load`
returns after one increment and is undefined after two. -/
theorem load_outside_tile_past_the_ends_witness :
    SimtPolicy ⟨8, 16, 1⟩ ⟨8⟩ Layout.RowMajor ⟨⟨4, 4⟩, ⟨1, 2, 1⟩⟩
        = Except.ok ⟨2, 4, 8, 2, 4, 2⟩ ∧
      FragmentIteratorSimt.load ⟨2, 4, 8, 2, 4, 2⟩
          (FragmentIteratorSimt.ctor
            [10, 11, 12, 13, 20, 21, 22, 23]).operator_increment.operator_increment
          [0, 0, 0, 0] 0 = none ∧
      FragmentIteratorSimt.load ⟨2, 4, 8, 2, 4, 2⟩
          (FragmentIteratorSimt.ctor [10, 11, 12, 13, 20, 21, 22, 23]).operator_decrement
          [0, 0, 0, 0] 0 = none ∧
      ((∀ p : Int, ((⟨2, 4, 8, 2, 4, 2⟩ : Policy).kIterations ≤ p ∨ p < 0) →
          (∀ n e : Int, 0 ≤ n → n < (⟨2, 4, 8, 2, 4, 2⟩ : Policy).kAccessesPerIteration →
            0 ≤ e → e < (⟨2, 4, 8, 2, 4, 2⟩ : Policy).kElementsPerAccess →
            (p * (⟨2, 4, 8, 2, 4, 2⟩ : Policy).kAccessesPerIteration + n) *
                (⟨2, 4, 8, 2, 4, 2⟩ : Policy).kElementsPerAccess + e < 0 ∨
            (⟨2, 4, 8, 2, 4, 2⟩ : Policy).kAccumulatorElementCount
              ≤ (p * (⟨2, 4, 8, 2, 4, 2⟩ : Policy).kAccessesPerIteration + n) *
                (⟨2, 4, 8, 2, 4, 2⟩ : Policy).kElementsPerAccess + e) ∧
          FragmentIteratorSimt.load ⟨2, 4, 8, 2, 4, 2⟩
            ⟨[10, 11, 12, 13, 20, 21, 22, 23], p⟩ [0, 0, 0, 0] 0 = none) ∧
        ((FragmentIteratorSimt.ctor [10, 11, 12, 13, 20, 21, 22, 23]).steps
            (List.replicate (⟨2, 4, 8, 2, 4, 2⟩ : Policy).kIterations.toNat
              Move.increment)).index_ = (⟨2, 4, 8, 2, 4, 2⟩ : Policy).kIterations ∧
        FragmentIteratorSimt.load ⟨2, 4, 8, 2, 4, 2⟩
          ((FragmentIteratorSimt.ctor [10, 11, 12, 13, 20, 21, 22, 23]).steps
            (List.replicate (⟨2, 4, 8, 2, 4, 2⟩ : Policy).kIterations.toNat
              Move.increment)) [0, 0, 0, 0] 0 = none ∧
        (0 < (⟨2, 4, 8, 2, 4, 2⟩ : Policy).kIterations →
          ((FragmentIteratorSimt.ctor [10, 11, 12, 13, 20, 21, 22, 23]).steps
            (List.replicate ((⟨2, 4, 8, 2, 4, 2⟩ : Policy).kIterations.toNat - 1)
              Move.increment)).index_ = (⟨2, 4, 8, 2, 4, 2⟩ : Policy).kIterations - 1 ∧
          (FragmentIteratorSimt.load ⟨2, 4, 8, 2, 4, 2⟩
            ((FragmentIteratorSimt.ctor [10, 11, 12, 13, 20, 21, 22, 23]).steps
              (List.replicate ((⟨2, 4, 8, 2, 4, 2⟩ : Policy).kIterations.toNat - 1)
                Move.increment)) [0, 0, 0, 0] 0).isSome = true)) :=
  ⟨rfl, rfl, rfl, load_outside_tile_past_the_ends ⟨8, 16, 1⟩ ⟨8⟩ Layout.RowMajor
    ⟨⟨4, 4⟩, ⟨1, 2, 1⟩⟩ ⟨2, 4, 8, 2, 4, 2⟩ [10, 11, 12, 13, 20, 21, 22, 23] [0, 0, 0, 0] 0
    rfl ⟨by decide, by decide, by decide⟩ rfl rfl rfl (by decide)⟩

/-- C14: for every shape `SimtPolicy` accepts, `iterations * rows_per_iteration == M`,
`elements_per_iteration * lane-cols == N`, and therefore
`accumulator_element_count * (lane-rows * lane-cols) == M * N`. -/
theorem SimtPolicy_tiles_warp_output (ws : GemmShape) (op : Operator) (l : Layout)
    (mp : MmaSimtPolicy) (P : Policy) (hP : SimtPolicy ws op l mp = Except.ok P) :
    P.kIterations * P.kRowsPerIteration = ws.kM ∧
      P.kElementsPerIteration * mp.WarpShape.kColumn = ws.kN ∧
      P.kAccumulatorElementCount * (mp.WarpShape.kRow * mp.WarpShape.kColumn)
        = ws.kM * ws.kN := by
  rw [SimtPolicy_eq_ok_iff] at hP
  obtain ⟨-, -, h2, -, h4, -, rfl⟩ := hP
  have hM : ws.kM.tdiv mp.WarpShape.kRow * mp.WarpShape.kRow = ws.kM :=
    Int.tdiv_mul_cancel_of_tmod_eq_zero h2
  have hN : ws.kN.tdiv mp.WarpShape.kColumn * mp.WarpShape.kColumn = ws.kN :=
    Int.tdiv_mul_cancel_of_tmod_eq_zero h4
  refine ⟨hM, hN, ?_⟩
  simp only
  calc ws.kN.tdiv mp.WarpShape.kColumn * ws.kM.tdiv mp.WarpShape.kRow
        * (mp.WarpShape.kRow * mp.WarpShape.kColumn)
      = (ws.kM.tdiv mp.WarpShape.kRow * mp.WarpShape.kRow)
        * (ws.kN.tdiv mp.WarpShape.kColumn * mp.WarpShape.kColumn) := by ring
    _ = ws.kM * ws.kN := by rw [hM, hN]

/-- C14 at the warp shape 32 x 64 with lanes 4 x 8 and lane width 4: 64 accumulators on each
of the 32 lanes. -/
theorem SimtPolicy_tiles_warp_output_witness :
    SimtPolicy ⟨32, 64, 8⟩ ⟨64⟩ Layout.RowMajor ⟨⟨4, 8⟩, ⟨4, 4, 1⟩⟩
        = Except.ok ⟨8, 8, 64, 4, 4, 2⟩ ∧
      ((8 : Int) * 4 = 32 ∧ (8 : Int) * 8 = 64 ∧ (64 : Int) * (4 * 8) = 32 * 64) :=
  ⟨rfl, SimtPolicy_tiles_warp_output ⟨32, 64, 8⟩ ⟨64⟩ Layout.RowMajor ⟨⟨4, 8⟩, ⟨4, 4, 1⟩⟩
    ⟨8, 8, 64, 4, 4, 2⟩ rfl⟩

/-- C15: for every accepted shape, divisible or not, `load` at a position
`0 <= p < iterations` returns with a buffer of the same length whose first
`accesses_per_iteration * elements_per_access` elements are the tile elements from index
`p * accesses_per_iteration * elements_per_access` on, and whose remaining
`elements_per_iteration mod elements_per_access` trailing elements are what they were. -/
theorem load_overwrites_leading_accesses_only {α : Type} (ws : GemmShape) (op : Operator)
    (l : Layout) (mp : MmaSimtPolicy) (P : Policy) (tile frag : List α) (p k : Int)
    (hP : SimtPolicy ws op l mp = Except.ok P)
    (hinst : FragmentIteratorSimt.Instantiable P)
    (htile : IsAccumulatorTile P tile) (hfrag : IsFragment P frag)
    (hp0 : 0 ≤ p) (hp1 : p < P.kIterations) :
    ∃ frag', FragmentIteratorSimt.load P ⟨tile, p⟩ frag k = some (⟨tile, p⟩, frag') ∧
      frag'.length = frag.length ∧
      (∀ j : Nat, (j : Int) < P.kAccessesPerIteration * P.kElementsPerAccess →
        ∃ x, frag'[j]? = some x ∧
          tile[(p * P.kAccessesPerIteration * P.kElementsPerAccess).toNat + j]? = some x) ∧
      (∀ j : Nat, P.kAccessesPerIteration * P.kElementsPerAccess ≤ (j : Int) →
        frag'[j]? = frag[j]?) ∧
      (frag.length : Int) - P.kAccessesPerIteration * P.kElementsPerAccess
        = P.kElementsPerIteration.tmod P.kElementsPerAccess := by
  obtain ⟨EPI, E, A, I, pn, hEPI, hE, hA, hI, hpn, hEpos, hAdef, hAE, hpI, hlen⟩ :=
    in_range_nat_view ws op l mp P tile p hP hinst htile hp0 hp1
  have hfl : frag.length = EPI := by
    unfold IsFragment at hfrag; rw [hEPI] at hfrag; exact_mod_cast hfrag
  obtain ⟨frag', hrun, hlen', hget⟩ :=
    load_spec_nat P ⟨tile, p⟩ frag k EPI E A I pn hE hA hAE hfl hlen hpn hpI
  have hcast : P.kAccessesPerIteration * P.kElementsPerAccess = ((A * E : Nat) : Int) := by
    rw [hA, hE]; push_cast; rfl
  refine ⟨frag', hrun, hlen', ?_, ?_, ?_⟩
  · intro j hj
    rw [hcast] at hj
    have hj' : j < A * E := by exact_mod_cast hj
    have hidx : (p * P.kAccessesPerIteration * P.kElementsPerAccess).toNat = pn * A * E := by
      rw [hpn, hA, hE, ← Int.natCast_mul, ← Int.natCast_mul]; exact Int.toNat_natCast _
    have hin : pn * A * E + j < tile.length := by
      rw [hlen]
      calc pn * A * E + j < pn * (A * E) + A * E := by rw [Nat.mul_assoc]; omega
        _ = (pn + 1) * (A * E) := by ring
        _ ≤ I * EPI := Nat.mul_le_mul hpI hAE
        _ = EPI * I := Nat.mul_comm _ _
    refine ⟨tile[pn * A * E + j], ?_, ?_⟩
    · rw [hget j, if_pos hj']
      exact List.getElem?_eq_getElem hin
    · rw [hidx]
      exact List.getElem?_eq_getElem hin
  · intro j hj
    rw [hcast] at hj
    have hj' : ¬ j < A * E := by
      have : A * E ≤ j := by exact_mod_cast hj
      omega
    rw [hget j, if_neg hj']
  · rw [hcast, hfl, hEPI, hE, Int.tmod_eq_emod (by positivity) (by positivity), hAdef]
    have h := Nat.div_add_mod EPI E
    have hz : ((EPI % E : Nat) : Int) = (EPI : Int) % (E : Int) := by norm_cast
    rw [← hz]
    have h2 : EPI / E * E + EPI % E = EPI := by rw [Nat.mul_comm]; exact h
    have h3 : ((EPI / E * E : Nat) : Int) + ((EPI % E : Nat) : Int) = (EPI : Int) := by
      exact_mod_cast h2
    omega

/-- C15 at the warp shape 8 x 12 with lanes 4 x 4 and lane width 2, position 1: of the three
elements `[7, 8, 9]` of the buffer the first two are overwritten and the third stays. -/
theorem load_overwrites_leading_accesses_only_witness :
    SimtPolicy ⟨8, 12, 1⟩ ⟨6⟩ Layout.RowMajor ⟨⟨4, 4⟩, ⟨1, 2, 1⟩⟩
        = Except.ok ⟨2, 3, 6, 2, 4, 1⟩ ∧
      FragmentIteratorSimt.load ⟨2, 3, 6, 2, 4, 1⟩
          ⟨[10, 11, 12, 20, 21, 22], 1⟩ [7, 8, 9] 0
        = some (⟨[10, 11, 12, 20, 21, 22], 1⟩, [12, 20, 9]) ∧
      ∃ frag', FragmentIteratorSimt.load ⟨2, 3, 6, 2, 4, 1⟩
          ⟨[10, 11, 12, 20, 21, 22], 1⟩ [7, 8, 9] 0
            = some (⟨[10, 11, 12, 20, 21, 22], 1⟩, frag') ∧
        frag'.length = [7, 8, 9].length ∧
        (∀ j : Nat, (j : Int) < (⟨2, 3, 6, 2, 4, 1⟩ : Policy).kAccessesPerIteration *
            (⟨2, 3, 6, 2, 4, 1⟩ : Policy).kElementsPerAccess →
          ∃ x, frag'[j]? = some x ∧
            [10, 11, 12, 20, 21, 22][((1 : Int) *
              (⟨2, 3, 6, 2, 4, 1⟩ : Policy).kAccessesPerIteration *
              (⟨2, 3, 6, 2, 4, 1⟩ : Policy).kElementsPerAccess).toNat + j]? = some x) ∧
        (∀ j : Nat, (⟨2, 3, 6, 2, 4, 1⟩ : Policy).kAccessesPerIteration *
            (⟨2, 3, 6, 2, 4, 1⟩ : Policy).kElementsPerAccess ≤ (j : Int) →
          frag'[j]? = [7, 8, 9][j]?) ∧
        (([7, 8, 9] : List Nat).length : Int) -
            (⟨2, 3, 6, 2, 4, 1⟩ : Policy).kAccessesPerIteration *
            (⟨2, 3, 6, 2, 4, 1⟩ : Policy).kElementsPerAccess
          = (⟨2, 3, 6, 2, 4, 1⟩ : Policy).kElementsPerIteration.tmod
            (⟨2, 3, 6, 2, 4, 1⟩ : Policy).kElementsPerAccess :=
  ⟨rfl, rfl, load_overwrites_leading_accesses_only ⟨8, 12, 1⟩ ⟨6⟩ Layout.RowMajor
    ⟨⟨4, 4⟩, ⟨1, 2, 1⟩⟩ ⟨2, 3, 6, 2, 4, 1⟩ [10, 11, 12, 20, 21, 22] [7, 8, 9] 1 0 rfl
    ⟨by decide, by decide, by decide⟩ rfl rfl (by decide) (by decide)⟩

end cutlass.epilogue.warp

namespace cutlass.epilogue.threadblock

/-- C16: for every pair of positive K extents the instantiation of
`ConvolutionEpilogueTensorOp` is accepted without a divisibility check, `kPartitionsK` is the
truncating quotient threadblock K / warp K, `kPartitionsK * warp K <= threadblock K` with
equality exactly when warp K divides threadblock K, and `kPartitionsK == 0` when warp K
exceeds threadblock K. -/
theorem kPartitionsK_truncating_quotient (Shape WarpMmaTensorOp_Shape : GemmShape)
    (Interleaved ElementsPerAccess : Int)
    (hS : 0 < Shape.kK) (hW : 0 < WarpMmaTensorOp_Shape.kK) :
    ∃ C, ConvolutionEpilogueTensorOp Shape (TensorLayout.TensorNCxHWx Interleaved)
        (TensorLayout.TensorNCxHWx Interleaved) WarpMmaTensorOp_Shape ElementsPerAccess
          = Except.ok C ∧
      C.kPartitionsK = Shape.kK.tdiv WarpMmaTensorOp_Shape.kK ∧
      C.kPartitionsK * WarpMmaTensorOp_Shape.kK ≤ Shape.kK ∧
      (C.kPartitionsK * WarpMmaTensorOp_Shape.kK = Shape.kK ↔
        WarpMmaTensorOp_Shape.kK ∣ Shape.kK) ∧
      (Shape.kK < WarpMmaTensorOp_Shape.kK → C.kPartitionsK = 0) := by
  have hW0 : WarpMmaTensorOp_Shape.kK ≠ 0 := by omega
  refine ⟨⟨ElementsPerAccess, Shape.kK.tdiv WarpMmaTensorOp_Shape.kK, Interleaved⟩,
    ?_, rfl, ?_, ?_, ?_⟩
  · simp [ConvolutionEpilogueTensorOp, hW0]
  · simp only
    rw [Int.tdiv_eq_ediv (Int.le_of_lt hS) (Int.le_of_lt hW)]
    exact Int.ediv_mul_le _ hW0
  · simp only
    constructor
    · intro h
      exact ⟨Shape.kK.tdiv WarpMmaTensorOp_Shape.kK, by rw [Int.mul_comm]; exact h.symm⟩
    · intro h
      exact Int.tdiv_mul_cancel h
  · intro hlt
    exact Int.tdiv_eq_zero_of_lt (Int.le_of_lt hS) hlt

/-- C16 at threadblock K = 32 and warp K = 12: two partitions covering 24 of the 32. -/
theorem kPartitionsK_truncating_quotient_witness :
    ConvolutionEpilogueTensorOp ⟨128, 128, 32⟩ (TensorLayout.TensorNCxHWx 32)
        (TensorLayout.TensorNCxHWx 32) ⟨64, 64, 12⟩ 8 = Except.ok ⟨8, 2, 32⟩ ∧
      ∃ C, ConvolutionEpilogueTensorOp ⟨128, 128, 32⟩ (TensorLayout.TensorNCxHWx 32)
          (TensorLayout.TensorNCxHWx 32) ⟨64, 64, 12⟩ 8 = Except.ok C ∧
        C.kPartitionsK = (32 : Int).tdiv 12 ∧
        C.kPartitionsK * 12 ≤ 32 ∧
        (C.kPartitionsK * 12 = 32 ↔ (12 : Int) ∣ 32) ∧
        ((32 : Int) < 12 → C.kPartitionsK = 0) :=
  ⟨rfl, kPartitionsK_truncating_quotient ⟨128, 128, 32⟩ ⟨64, 64, 12⟩ 32 8
    (by decide) (by decide)⟩

end cutlass.epilogue.threadblock
